import Mathlib

/-!
Verification development for the vultos.js in-memory full-text search engine.

The repository contains two engine variants:
* `src/unnamed/part_000` — the indexed engine (class `Vultos`): inverted index,
  query cache, where/score filtering, batch add/remove.  It imports
  `Field` (field.js), `calculateScore` (score.js) and `textUtils`
  (sanitizeText / stemmer / levenshteinDistance) which are not under `src/`;
  those pieces are modelled from `src/src/vultus.js` (which contains the same
  routines inline) and, where no source exists at all, from the spec, as
  marked in the doc comments below.
* `src/src/vultus.js` — the flat engine variant whose scorer
  (`#calculateScore`, `#calculatePhraseScore`, `#calculateWordScore`,
  `#calculateNumberScore`, `#calculateBooleanScore`), `#stemmer`,
  `#sanitizeText` and `#levenshteinDistance` are embedded here directly.

Modelling conventions:
* JS strings are `List Char` (`Str`); only ASCII behaviour of
  `toLowerCase` / `\w` / `\s` is modelled, which covers every string the
  claims exercise.
* JS numbers are `ℚ`: the scores manipulated by the engine are sums of
  terms `w * 5 / (d + 1)` and `w / (d + 1)`; exact arithmetic preserves all
  order comparisons the claims are about.
* JS `Set` objects hold object references.  Buckets and candidate sets are
  lists kept duplicate-free by value: within one `addDoc` call the engine
  inserts one fixed reference, so reference-dedup coincides with
  value-dedup there, and every observable the claims mention (store
  contents, bucket emptiness, post-dedup hit lists) is unchanged by this
  identification.
* `performance.now` timing (`elapsed`), `console.warn` / `console.log`
  output and the returned `sortBy` closure are outside the model (the spec
  places logging/printing out of scope).
* A JS `throw` is `Except.error`; the engine state at the moment of a
  throw is not returned (no claim below depends on it, and for `addDoc`
  the throw happens before any mutation).
-/

namespace Vultos

/-- JS strings, processed character-wise. -/
abbrev Str := List Char

/-- Membership of a character in the regex class `\w` = `[A-Za-z0-9_]` (ASCII). -/
def jsIsWordChar (c : Char) : Bool :=
  c.isAlpha || c.isDigit || c = '_'

/-- Membership of a character in the regex class `\s` (ASCII whitespace). -/
def jsIsSpaceChar (c : Char) : Bool :=
  c = ' ' || c = '\t' || c = '\n' || c = '\r' || c.val = 11 || c.val = 12

/-- Embeds `#sanitizeText` (src/src/vultus.js 201-206, re-exported to the
indexed engine through textUtils.js): remove every character that is neither
a word character nor whitespace, then lowercase. -/
def sanitizeText (t : Str) : Str :=
  (t.filter (fun c => jsIsWordChar c || jsIsSpaceChar c)).map Char.toLower

/-- Worker for `splitWs`: `cur` is the reversed current token, `inRun` is true
while consuming a maximal whitespace run that has already emitted a token. -/
def splitWsGo : List Char → List Char → Bool → List Str
  | [], cur, _ => [cur.reverse]
  | c :: rest, cur, inRun =>
    if jsIsSpaceChar c then
      if inRun then splitWsGo rest cur true
      else cur.reverse :: splitWsGo rest [] true
    else splitWsGo rest (c :: cur) false

/-- JS `s.split(/\s+/)`: each maximal whitespace run separates tokens; leading
or trailing whitespace contributes an empty token, and the empty string splits
to `[""]`. -/
def splitWs (s : Str) : List Str :=
  splitWsGo s [] false

/-- JS `s.toLowerCase()` (ASCII). -/
def lowerStr (s : Str) : Str :=
  s.map Char.toLower

/-- True when `suf` is a suffix of `w` (JS `word.endsWith(suf)` / a `$`-anchored
regex match). -/
def sfx (suf w : Str) : Bool :=
  List.isSuffixOf suf w

/-- Drop the last `n` characters of `w`. -/
def stripSfx (w : Str) (n : Nat) : Str :=
  w.take (w.length - n)

/-- Vowel test used by the stemmer character classes. -/
def isAeiou (c : Char) : Bool :=
  c = 'a' || c = 'e' || c = 'i' || c = 'o' || c = 'u'

/-- Modelled from the spec: `lists.js` (`list_2_3`) is not under src/.
Spec §4.2 step 4 gives the ordered suffix→replacement table by example
(`ational`→`ate`, `tional`→`tion`, …); the examples are modelled. -/
def list_2_3 : List (Str × Str) :=
  [( "ational".toList, "ate".toList), ( "tional".toList, "tion".toList)]

/-- Modelled from the spec: `lists.js` (`list_4`) is not under src/.
Spec §4.2 step 5 gives the ordered suffix list by example
(`al`, `ance`, `ence`, `er`, `ic`, `able`, `ible`, …); the examples are
modelled. -/
def list_4 : List Str :=
  [ "al".toList, "ance".toList, "ence".toList, "er".toList,
    "ic".toList, "able".toList, "ible".toList]

/-- Embeds the `ed`/`ing` base rewriting of `#stemmer`
(src/src/vultus.js 248-257): `at|bl|iz` bases get `e`, doubled consonants
(outside `aeiouylsz`) lose one letter, consonant-vowel-consonant bases
(final letter outside `aeiouwxy`) get `e`. -/
def stemBase (base : Str) : Str :=
  if sfx ( "at".toList) base || sfx ( "bl".toList) base || sfx ( "iz".toList) base then
    base ++ ( "e".toList)
  else
    match base.reverse with
    | l :: m :: rest =>
      if l = m && !(isAeiou l || l = 'y' || l = 'l' || l = 's' || l = 'z') then
        base.dropLast
      else
        match rest with
        | r :: _ =>
          if !isAeiou r && (isAeiou m || m = 'y') && !(isAeiou l || l = 'w' || l = 'x' || l = 'y') then
            base ++ ( "e".toList)
          else base
        | [] => base
    | _ => base

/-- Embeds `#stemmer` (src/src/vultus.js 236-283, re-exported to the indexed
engine through textUtils.js).  The `$`-anchored regex alternations reduce to
suffix tests: at a fixed end position the alternatives are mutually
exclusive, so plain `endsWith` checks (longest first where suffixes overlap)
reproduce the JS replacements. -/
def stemmer (word0 : Str) : Str :=
  -- step 1: plural suffixes, then a trailing `s` not preceded by `s`
  let w1 :=
    if sfx ( "sses".toList) word0 then stripSfx word0 4 ++ ( "ss".toList)
    else if sfx ( "ies".toList) word0 then stripSfx word0 3 ++ ( "ss".toList)
    else word0
  let w2 :=
    match w1.reverse with
    | 's' :: c :: _ => if c = 's' then w1 else w1.dropLast
    | _ => w1
  -- step 2: eed/eedly, else ed/edly/ing/ingly with base rewriting
  let w3 :=
    if sfx ( "eedly".toList) w2 then stripSfx w2 5 ++ ( "ee".toList)
    else if sfx ( "eed".toList) w2 then stripSfx w2 3 ++ ( "ee".toList)
    else if sfx ( "edly".toList) w2 then stemBase (stripSfx w2 4)
    else if sfx ( "ingly".toList) w2 then stemBase (stripSfx w2 5)
    else if sfx ( "ed".toList) w2 then stemBase (stripSfx w2 2)
    else if sfx ( "ing".toList) w2 then stemBase (stripSfx w2 3)
    else w2
  -- step 3: trailing y → i
  let w4 :=
    match w3.reverse with
    | 'y' :: _ => w3.dropLast ++ ( "i".toList)
    | 'Y' :: _ => w3.dropLast ++ ( "i".toList)
    | _ => w3
  -- step 4: derivational table, first match returns immediately
  match list_2_3.find? (fun p => sfx p.1 w4) with
  | some p => stripSfx w4 p.1.length ++ p.2
  | none =>
    -- step 5: suffix removal, first match returns immediately
    match list_4.find? (fun suf => sfx suf w4) with
    | some suf => stripSfx w4 suf.length
    | none =>
      -- step 6: cleanup, e$ then ll → l
      let w5 := if sfx ( "e".toList) w4 then w4.dropLast else w4
      if sfx ( "ll".toList) w5 then w5.dropLast else w5

/-- Embeds the dynamic-programming matrix of `#levenshteinDistance`
(src/src/vultus.js 214-229): the fill loops write each entry `matrix[i][j]`
exactly once from `matrix[i-1][j-1]`, `matrix[i][j-1]` and `matrix[i-1][j]`,
so the table is the unique solution of these equations.  Row index `i` ranges
over `b`, column index `j` over `a`, matching the source. -/
def levTable (a b : Str) : Nat → Nat → Nat
  | 0, j => j
  | i + 1, 0 => i + 1
  | i + 1, j + 1 =>
    if b.getD i ' ' = a.getD j ' ' then levTable a b i j
    else 1 + min (levTable a b i j) (min (levTable a b (i + 1) j) (levTable a b i (j + 1)))
  termination_by i j => (i, j)

/-- Inner (column) loop of the `#levenshteinDistance` fill
(src/src/vultus.js 221-229): processes the remaining characters of `a`,
carrying the suffix of the previous row starting at the diagonal entry and
the entry just written in the current row (`left`).  The `[]`-row case is
unreachable: the previous row is always one longer than the remaining
characters. -/
def levGo (bc : Char) : Str → List Nat → Nat → List Nat
  | [], _, _ => []
  | _ :: _, [], _ => []
  | ac :: arest, pdiag :: prest, left =>
    (if bc = ac then pdiag else 1 + min pdiag (min left (prest.headD 0)))
      :: levGo bc arest prest
        (if bc = ac then pdiag else 1 + min pdiag (min left (prest.headD 0)))

/-- Outer (row) loop of the `#levenshteinDistance` fill
(src/src/vultus.js 214-229): starting from row 0 = `[0, …, a.length]`,
each character of `b` produces the next row, whose first entry is the row
index (`matrix[i] = [i]`). -/
def levFold (a : Str) : List Char → List Nat → Nat → List Nat
  | [], row, _ => row
  | bc :: brest, row, i => levFold a brest ((i + 1) :: levGo bc a row (i + 1)) (i + 1)

/-- Embeds `#levenshteinDistance` (src/src/vultus.js 208-234, re-exported
through textUtils.js): the row-by-row matrix fill, returning
`matrix[b.length][a.length]`.  It computes exactly the table `levTable`
(proved below).  The per-instance memoization cache keyed by the string
pair only replays previously computed values of this pure function, so it
is modelled by the function itself. -/
def levenshteinDistance (a b : Str) : Nat :=
  (levFold a b (List.range (a.length + 1)) 0).getD a.length 0

/-- The segment `[levTable i j₀, …, levTable i (j₀ + count - 1)]` of row
`i` of the DP table. -/
def tableSeg (a b : Str) (i j₀ count : Nat) : List Nat :=
  (List.range count).map (fun k => levTable a b i (j₀ + k))

/-- Unit-cost edit scripts: `Tr a b n` holds when `a` transforms into `b`
using `n` single-character substitutions, deletions and insertions
(matching characters are copied for free). -/
inductive Tr : Str → Str → Nat → Prop
  | nil : Tr [] [] 0
  | copy (c : Char) {xs ys : Str} {n : Nat} : Tr xs ys n → Tr (c :: xs) (c :: ys) n
  | subst (c d : Char) {xs ys : Str} {n : Nat} : Tr xs ys n → Tr (c :: xs) (d :: ys) (n + 1)
  | del (c : Char) {xs ys : Str} {n : Nat} : Tr xs ys n → Tr (c :: xs) ys (n + 1)
  | ins (d : Char) {xs ys : Str} {n : Nat} : Tr xs ys n → Tr xs (d :: ys) (n + 1)

/-- Head-first form of the DP recurrence; `levTable a b i j` equals `levH`
on the reversed prefixes (proved below). -/
def levH : Str → Str → Nat
  | [], ys => ys.length
  | x :: xs, [] => (x :: xs).length
  | x :: xs, y :: ys =>
    if y = x then levH xs ys
    else 1 + min (levH xs ys) (min (levH xs (y :: ys)) (levH (x :: xs) ys))
  termination_by xs ys => (xs.length, ys.length)

/-! ### Data model: schema types, values, documents, fields -/

/-- Declared field types; schema values are the strings
`"string" | "number" | "boolean"`. -/
inductive FieldType
  | string
  | number
  | boolean
  deriving DecidableEq, Repr

/-- A JS primitive value as stored in a document field. -/
inductive Value
  | str (s : Str)
  | num (q : ℚ)
  | bool (b : Bool)
  deriving DecidableEq, BEq, Repr

/-- JS `typeof` restricted to the three schema-admissible primitives. -/
def Value.typeOf : Value → FieldType
  | .str _ => .string
  | .num _ => .number
  | .bool _ => .boolean

/-- A document: a JS object mapped field-name → value, in key insertion
order. -/
abbrev Doc := List (String × Value)

/-- A schema: field-name → declared type, in key insertion order. -/
abbrev Schema := List (String × FieldType)

/-- Embeds the Field objects held in `this.fields` (one per schema key,
weight defaulting to 1, per spec §3 — field.js itself is not under src/). -/
structure Field where
  name : String
  weight : ℚ := 1
  deriving DecidableEq, Repr

/-- Modelled from the spec: `field.js` (`setWeight`) is not under src/.
Spec §3: weight is a number, default 1, clamped to [1,5] whenever set. -/
def Field.setWeight (f : Field) (w : ℚ) : Field :=
  { f with weight := max 1 (min 5 w) }

/-- Embeds `#equals` (src/unnamed/part_000 143-157): the sorted key arrays
must serialize identically — equivalent to the key multisets being equal —
and each key of the first document must hold strictly equal (`===`) values
in both. -/
def docEquals (d1 d2 : Doc) : Bool :=
  let k1 := d1.map Prod.fst
  let k2 := d2.map Prod.fst
  if k1.isPerm k2 then k1.all (fun k => d1.lookup k == d2.lookup k) else false

/-- Embeds `#validateDoc` (src/unnamed/part_000 185-192 and
src/src/vultus.js 25-32): every schema key must be present with matching
`typeof`. -/
def validateDoc (schema : Schema) (doc : Doc) : Bool :=
  schema.all (fun kv =>
    match doc.lookup kv.1 with
    | some v => v.typeOf == kv.2
    | none => false)

/-! ### Scorer (src/src/vultus.js 112-199)

The indexed engine delegates to `calculateScore` from score.js, which is not
under src/; the flat variant contains the same scorer inline and spec §4.5
describes it, so the inline variant is embedded directly and the score.js
entry point is modelled from the spec further below (`scoreDoc`). -/

/-- Loop of `#calculatePhraseScore` (src/src/vultus.js 143-152).  The JS
condition `i <= fieldContent.length - fullQuery.length` is evaluated on
(possibly negative) JS numbers, hence the additive form here.  Each
iteration advances `i` by at least 1 whenever `fullQuery` is non-empty, so
the fuel `fieldContent.length + 1` supplied by the wrapper is never
exhausted (JS itself would not terminate on a matching empty `fullQuery`;
that string is unreachable from `#calculateScore`, which only attempts
phrases for queries of at least two words joined by a space). -/
def phraseLoop (fieldContent fullQuery : Str) (fieldWeight : ℚ) : Nat → Nat → ℚ
  | 0, _ => 0
  | fuel + 1, i =>
    if i + fullQuery.length ≤ fieldContent.length then
      let substring := (fieldContent.drop i).take fullQuery.length
      let distance := levenshteinDistance fullQuery substring
      if distance < 3 then
        fieldWeight * 5 / ((distance : ℚ) + 1) + phraseLoop fieldContent fullQuery fieldWeight fuel (i + fullQuery.length)
      else phraseLoop fieldContent fullQuery fieldWeight fuel (i + 1)
    else 0

/-- Embeds `#calculatePhraseScore` (src/src/vultus.js 138-155): slide a
window the length of the sanitized space-joined query across the field
text; a window within edit distance 2 scores `w * 5 / (d + 1)` and skips
the window ahead, otherwise the window advances one character. -/
def calculatePhraseScore (fieldContent : Str) (queryWords : List Str) (fieldWeight : ℚ) : ℚ :=
  let fullQuery := sanitizeText (List.intercalate ( " ".toList) queryWords)
  phraseLoop fieldContent fullQuery fieldWeight (fieldContent.length + 1) 0

/-- Position loop for `phraseScoreSpec`, written from the spec sentence. -/
def phraseSpecLoop (text query : Str) (w : ℚ) : Nat → Nat → ℚ
  | 0, _ => 0
  | fuel + 1, pos =>
    if pos + query.length ≤ text.length then
      let window := (text.drop pos).take query.length
      let dist := levenshteinDistance query window
      if dist < 3 then
        w * 5 / ((dist : ℚ) + 1) + phraseSpecLoop text query w fuel (pos + query.length)
      else phraseSpecLoop text query w fuel (pos + 1)
    else 0

/-- Phrase rule as worded in spec §4.5, for comparison with the embedded
`#calculatePhraseScore`: slide a window of length equal to the normalized,
space-joined query across the field text; at each position compute the edit
distance between window and query; if the distance is below 3, award
`w * 5 / (distance + 1)` and advance past the matched span, else advance by
one character. -/
def phraseScoreSpec (text : Str) (queryWords : List Str) (w : ℚ) : ℚ :=
  phraseSpecLoop text (sanitizeText (List.intercalate ( " ".toList) queryWords)) w (text.length + 1) 0

/-- Embeds `#calculateWordScore` (src/src/vultus.js 157-172): every
(stemmed query word, stemmed field word) pair within edit distance 2 scores
`w / (d + 1)`; the JS `score +=` accumulation is the sum of the generated
terms. -/
def calculateWordScore (fieldContent : Str) (queryWords : List Str) (fieldWeight : ℚ) : ℚ :=
  let sanitizedQueryWords := queryWords.map (fun word => stemmer (sanitizeText word))
  let fieldContentWords := (splitWs fieldContent).map stemmer
  (sanitizedQueryWords.map (fun word =>
    (fieldContentWords.map (fun fieldWord =>
      let distance := levenshteinDistance word fieldWord
      if distance < 3 then fieldWeight / ((distance : ℚ) + 1) else 0)).sum)).sum

/-- Digits of a decimal literal, `none` on a non-digit or the empty list. -/
def digitsToNat : List Char → Option Nat
  | [] => none
  | l =>
    if l.all Char.isDigit then some (l.foldl (fun acc c => acc * 10 + (c.toNat - 48)) 0)
    else none

/-- JS `!isNaN(w) && Number(w)` on a whitespace-free token: decimal
literals with optional sign and fraction; `Number("") = 0`.  Exponent, hex
and infinity forms of JS number parsing are not modelled (no schema value
the claims exercise produces them). -/
def jsToNumber (w : Str) : Option ℚ :=
  if w.isEmpty then some 0
  else
    let signBody : ℚ × Str :=
      match w with
      | '-' :: rest => (-1, rest)
      | '+' :: rest => (1, rest)
      | _ => (1, w)
    let sign := signBody.1
    let body := signBody.2
    let intPart := body.takeWhile (fun c => c ≠ '.')
    match body.dropWhile (fun c => c ≠ '.') with
    | [] => (digitsToNat intPart).map (fun n => sign * (n : ℚ))
    | _ :: frac =>
      if frac.any (fun c => c = '.') then none
      else if intPart.isEmpty && frac.isEmpty then none
      else
        let ip := if intPart.isEmpty then some 0 else digitsToNat intPart
        let fp := if frac.isEmpty then some 0 else digitsToNat frac
        match ip, fp with
        | some i, some f => some (sign * ((i : ℚ) + (f : ℚ) / ((10 : ℚ) ^ frac.length)))
        | _, _ => none

/-- Embeds `#calculateNumberScore` (src/src/vultus.js 174-182): each query
word that parses as a number and strictly equals the field value awards the
field weight. -/
def calculateNumberScore (fieldContent : ℚ) (queryWords : List Str) (fieldWeight : ℚ) : ℚ :=
  (queryWords.map (fun q =>
    if jsToNumber q == some fieldContent then fieldWeight else 0)).sum

/-- Embeds `#calculateBooleanScore` (src/src/vultus.js 184-199): query words
that are literally `true`/`false` and equal the field value award the field
weight. -/
def calculateBooleanScore (fieldContent : Bool) (queryWords : List Str) (fieldWeight : ℚ) : ℚ :=
  (queryWords.map (fun q =>
    if (q == ( "true".toList) && fieldContent) || (q == ( "false".toList) && !fieldContent) then
      fieldWeight
    else 0)).sum

/-- String-field contribution of `#calculateScore`
(src/src/vultus.js 121-126): phrase score only for queries of more than one
word, word score always, both on the sanitized field content. -/
def stringFieldScore (content : Str) (queryWords : List Str) (w : ℚ) : ℚ :=
  (if 1 < queryWords.length then calculatePhraseScore content queryWords w else 0)
  + calculateWordScore content queryWords w

/-- Embeds `#calculateScore` (src/src/vultus.js 112-136): sum of the typed
per-field contributions; a weight of 0 falls back to 1 (`field.weight || 1`).
The type-mismatch arm scores 0 — it is unreachable for schema-validated
documents (JS would coerce there). -/
def calculateScore (doc : Doc) (queryWords : List Str) (fields : List Field) (schema : Schema) : ℚ :=
  (fields.map (fun field =>
    match doc.lookup field.name with
    | none => 0
    | some v =>
      let fieldWeight := if field.weight = 0 then 1 else field.weight
      match schema.lookup field.name, v with
      | some FieldType.string, Value.str content =>
        stringFieldScore (sanitizeText content) queryWords fieldWeight
      | some FieldType.number, Value.num n => calculateNumberScore n queryWords fieldWeight
      | some FieldType.boolean, Value.bool b => calculateBooleanScore b queryWords fieldWeight
      | _, _ => 0)).sum

/-- Word-match rule of spec §4.5 for already-stemmed query words: stem every
field word; every (query word, field word) pair within edit distance 2
awards `w / (d + 1)`. -/
def wordScorePreStemmed (content : Str) (queryWords : List Str) (w : ℚ) : ℚ :=
  let fieldWords := (splitWs content).map stemmer
  (queryWords.map (fun qw =>
    (fieldWords.map (fun fw =>
      let distance := levenshteinDistance qw fw
      if distance < 3 then w / ((distance : ℚ) + 1) else 0)).sum)).sum

/-- Modelled from the spec: `score.js` (the `calculateScore` imported by the
indexed engine) is not under src/.  Spec §4.5: given a document, the list of
already-stemmed query words, the field list with weights and the schema, sum
per-field contributions — string fields take the phrase score (only for
multi-word queries) plus the word score, number fields award `w` per query
word parsing to the exact value, boolean fields award `w` per literal
`true`/`false` query word equal to the value. -/
def scoreDoc (doc : Doc) (queryWords : List Str) (fields : List Field) (schema : Schema) : ℚ :=
  (fields.map (fun field =>
    match doc.lookup field.name with
    | none => 0
    | some v =>
      let w := field.weight
      match schema.lookup field.name, v with
      | some FieldType.string, Value.str content =>
        let c := sanitizeText content
        (if 1 < queryWords.length then calculatePhraseScore c queryWords w else 0)
          + wordScorePreStemmed c queryWords w
      | some FieldType.number, Value.num n => calculateNumberScore n queryWords w
      | some FieldType.boolean, Value.bool b => calculateBooleanScore b queryWords w
      | _, _ => 0)).sum

/-! ### Indexed engine state and mutations (src/unnamed/part_000) -/

/-- A ranked hit `{score, document}` as produced by `search`. -/
structure Hit where
  score : ℚ
  document : Doc
  deriving DecidableEq, Repr

/-- The mutable state of a `Vultos` instance (src/unnamed/part_000 14-23).
The Levenshtein memo cache is not part of the state: it is pure memoization
of `levenshteinDistance` (see there). -/
structure Engine where
  schema : Schema
  index : List (Str × List Doc)
  cache : List (String × List Hit)
  docs : List Doc
  fields : List Field
  deriving DecidableEq, Repr

/-- Embeds the constructor (src/unnamed/part_000 9-24): empty stores and one
`Field` per schema key, in schema order.  The config-shape check (exactly
one `schema` property) is enforced by the argument type. -/
def initEngine (schema : Schema) : Engine :=
  { schema := schema, index := [], cache := [], docs := [],
    fields := schema.map (fun kv => { name := kv.1 }) }

def errDocSchema : String := "Document does not match schema"
def errFieldNotInSchema : String := "Field is not in the schema"
def errWhereField : String := "Field does not exist in the schema"
def errBoolCond : String := "Expected a boolean for condition on field"
def errScoreValue : String := "Invalid score value. Score must be between 0 and 1."
def errScoreUndefined : String := "Cannot read properties of undefined"

/-- Insertion into an index bucket (`Set.add`): a no-op when the document is
already present (see the header note on reference vs value identity). -/
def bucketAdd (ds : List Doc) (d : Doc) : List Doc :=
  if ds.contains d then ds else ds ++ [d]

/-- `Map.set`-style insertion for the inverted index: an existing term keeps
its position and gains the document; a new term is appended (JS `Map`
iteration order is insertion order). -/
def indexAdd (idx : List (Str × List Doc)) (t : Str) (d : Doc) : List (Str × List Doc) :=
  if (idx.lookup t).isSome then
    idx.map (fun p => if p.1 == t then (p.1, bucketAdd p.2 d) else p)
  else idx ++ [(t, [d])]

/-- Embeds `#addToIndex` (src/unnamed/part_000 170-183): every string-typed
field present on the document is sanitized, whitespace-split, stemmed, and
the document is added under each stem.  Only validated documents reach this
function, so a string-typed field always holds a `Value.str`. -/
def addToIndex (schema : Schema) (fields : List Field) (idx : List (Str × List Doc)) (doc : Doc) :
    List (Str × List Doc) :=
  fields.foldl (fun idx field =>
    match doc.lookup field.name, schema.lookup field.name with
    | some (Value.str content), some FieldType.string =>
      (splitWs (sanitizeText content)).foldl (fun idx term => indexAdd idx (stemmer term) doc) idx
    | _, _ => idx) idx

/-- Embeds `addDoc` (src/unnamed/part_000 26-33): validation happens first;
on failure the error is thrown before the store or index is touched. -/
def addDoc (s : Engine) (doc : Doc) : Except String Engine :=
  if validateDoc s.schema doc then
    .ok { s with docs := s.docs ++ [doc], index := addToIndex s.schema s.fields s.index doc }
  else .error errDocSchema

/-- The `BATCH_SIZE = 100` slicing loop shared by `addDocs`/`removeDocs`. -/
def chunks100 : List α → List (List α)
  | [] => []
  | x :: xs => (x :: xs).take 100 :: chunks100 ((x :: xs).drop 100)
  termination_by l => l.length
  decreasing_by simp [List.length_drop]; omega

/-- Embeds `#processBatch` (src/unnamed/part_000 159-168): documents are
committed one at a time until the first invalid one, whose error aborts the
batch (`false`) with the earlier commits retained. -/
def processBatch (s : Engine) : List Doc → Engine × Bool
  | [] => (s, true)
  | d :: rest =>
    match addDoc s d with
    | .ok s' => processBatch s' rest
    | .error _ => (s, false)

def addDocsRun (s : Engine) : List (List Doc) → Engine × Bool
  | [] => (s, true)
  | b :: rest =>
    match processBatch s b with
    | (s', true) => addDocsRun s' rest
    | (s', false) => (s', false)

/-- Embeds `addDocs` (src/unnamed/part_000 35-40): batches of 100, each
processed by `#processBatch`; a thrown error stops the remaining batches. -/
def addDocs (s : Engine) (docsArray : List Doc) : Engine × Bool :=
  addDocsRun s (chunks100 docsArray)

/-- Embeds the index half of `removeDoc` (src/unnamed/part_000 45-54):
structurally equal documents leave every bucket; a term whose set became
empty through a deletion is removed (a bucket that was already empty is not
visited by the inner loop and survives). -/
def removeDocFromIndex (idx : List (Str × List Doc)) (docToRemove : Doc) : List (Str × List Doc) :=
  idx.filterMap (fun p =>
    if p.2.isEmpty then some p
    else if (p.2.filter (fun d => !docEquals d docToRemove)).isEmpty then none
    else some (p.1, p.2.filter (fun d => !docEquals d docToRemove)))

/-- Embeds `removeDoc` (src/unnamed/part_000 42-55). -/
def removeDoc (s : Engine) (docToRemove : Doc) : Engine :=
  { s with docs := s.docs.filter (fun d => !docEquals d docToRemove),
           index := removeDocFromIndex s.index docToRemove }

/-- Embeds `removeDocs` / `#processRemovalBatch`
(src/unnamed/part_000 57-62, 194-199): per document, the same store and
index removal as `removeDoc`. -/
def removeDocs (s : Engine) (docsArray : List Doc) : Engine :=
  (chunks100 docsArray).foldl (fun s batch => batch.foldl removeDoc s) s

/-- One public mutation of the engine, for stating whole-history
invariants. -/
inductive Op
  | add (d : Doc)
  | addMany (ds : List Doc)
  | remove (d : Doc)
  | removeMany (ds : List Doc)

/-- Runs one operation; the `Bool` is false when the operation threw (the
engine keeps the mutations already committed at that point). -/
def applyOp (s : Engine) : Op → Engine × Bool
  | .add d =>
    match addDoc s d with
    | .ok s' => (s', true)
    | .error _ => (s, false)
  | .addMany ds => addDocs s ds
  | .remove d => (removeDoc s d, true)
  | .removeMany ds => (removeDocs s ds, true)

/-- Runs a call sequence; a thrown error stops the remaining calls. -/
def runOps (s : Engine) : List Op → Engine
  | [] => s
  | op :: rest =>
    match applyOp s op with
    | (s', true) => runOps s' rest
    | (s', false) => s'

/-! ### Search parameters, where clause, score filter (src/unnamed/part_000) -/

/-- A `parameters.fields` entry; only `weight` is read by the engine. -/
structure FieldParams where
  weight : Option ℚ := none
  deriving DecidableEq, Repr

/-- A `where` condition object.  Its fields are exactly the valid condition
keys `lt, lte, gt, gte, bt, eq, inc` (src/unnamed/part_000 247), so the
unknown-condition-key error of `#applyWhereClause` is unreachable in the
model.  Range thresholds are numbers, as in every claim; `bt` keeps its JS
array shape so that the length-2 check stays observable. -/
structure CondObj where
  lt : Option ℚ := none
  lte : Option ℚ := none
  gt : Option ℚ := none
  gte : Option ℚ := none
  bt : Option (List ℚ) := none
  eq : Option Value := none
  inc : Option Value := none
  deriving DecidableEq, Repr

/-- A `where` condition: either a condition object or a bare boolean (the
only two shapes `#applyWhereClause` distinguishes with `typeof`). -/
inductive Cond
  | obj (o : CondObj)
  | boolC (b : Bool)
  deriving DecidableEq, Repr

/-- The `where` clause, field name → condition, in key insertion order. -/
abbrev WhereClause := List (String × Cond)

/-- The `score` post-filter conditions; valid keys are `gt`, `lt`, `eq`. -/
structure ScoreCond where
  gt : Option ℚ := none
  lt : Option ℚ := none
  eq : Option ℚ := none
  deriving DecidableEq, Repr

/-- The search parameters object: exactly the keys `fields`, `where`,
`score` (so the unknown-parameter-key error of `#handleParameters` is
unreachable in the model); `where` is spelled `whereC` because `where` is a
Lean keyword. -/
structure Params where
  fields : Option (List (String × FieldParams)) := none
  whereC : Option WhereClause := none
  score : Option ScoreCond := none
  deriving DecidableEq, Repr

/-- `this.fields.find(f => f.name === fieldName)` followed by a `setWeight`
mutation of the found object: only the first field of that name changes. -/
def updateFirstWeight (fs : List Field) (fieldName : String) (w : ℚ) : List Field :=
  match fs with
  | [] => []
  | f :: rest =>
    if f.name == fieldName then f.setWeight w :: rest
    else f :: updateFirstWeight rest fieldName w

/-- One `parameters.fields` entry of `#setParameters`
(src/unnamed/part_000 339-351): a present weight above 5 sets 5, below 1
sets 1, otherwise itself (the `console.warn` corrections are logging,
outside the model). -/
def applyFieldEntry (fs : List Field) (e : String × FieldParams) : List Field :=
  match e.2.weight with
  | none => fs
  | some w =>
    if w > 5 then updateFirstWeight fs e.1 5
    else if w < 1 then updateFirstWeight fs e.1 1
    else updateFirstWeight fs e.1 w

/-- Embeds `#setParameters` (src/unnamed/part_000 332-354): the entries of
`parameters.fields` are applied in order.  The schema membership recheck is
performed by the caller `#handleParameters` before this runs. -/
def setParameters (s : Engine) (p : Params) : Engine :=
  match p.fields with
  | none => s
  | some fl => { s with fields := fl.foldl applyFieldEntry s.fields }

/-- Embeds `#handleParameters` (src/unnamed/part_000 218-237): nothing
happens for absent parameters; otherwise every `fields` entry must name a
schema field, then `#setParameters` applies the weights. -/
def handleParameters (s : Engine) (params : Option Params) : Except String Engine :=
  match params with
  | none => .ok s
  | some p =>
    match p.fields with
    | none => .ok (setParameters s p)
    | some fl =>
      if fl.all (fun e => (s.schema.lookup e.1).isSome) then .ok (setParameters s p)
      else .error errFieldNotInSchema

/-- JS `content.includes(pat)`: substring containment. -/
def strIncludes (content pat : Str) : Bool :=
  (List.range (content.length + 1)).any (fun i => (content.drop i).take pat.length == pat)

/-- First pass of `#applyWhereClause` (src/unnamed/part_000 240-271):
schema-membership check, `eq`/`inc` filtering for number and string fields,
and the boolean-field type error.  A `Value.str` is guaranteed at string
fields of validated documents; other shapes pass the `typeof` guards and
filter nothing. -/
def wherePhase1 (schema : Schema) : List Doc → WhereClause → Except String (List Doc)
  | docs, [] => .ok docs
  | docs, (key, cond) :: rest =>
    match schema.lookup key with
    | none => .error errWhereField
    | some expectedType =>
      match expectedType, cond with
      | FieldType.number, Cond.obj o =>
        let docs1 :=
          match o.eq with
          | some (Value.num q) => docs.filter (fun d => d.lookup key == some (Value.num q))
          | _ => docs
        wherePhase1 schema docs1 rest
      | FieldType.string, Cond.obj o =>
        let docs1 :=
          match o.eq with
          | some (Value.str t) => docs.filter (fun d => d.lookup key == some (Value.str t))
          | _ => docs
        let docs2 :=
          match o.inc with
          | some (Value.str t) =>
            docs1.filter (fun d =>
              match d.lookup key with
              | some (Value.str content) => strIncludes content t
              | _ => false)
          | _ => docs1
        wherePhase1 schema docs2 rest
      | FieldType.boolean, Cond.obj _ => .error errBoolCond
      | _, Cond.boolC _ => wherePhase1 schema docs rest

/-- JS truthiness of an optional numeric condition value: absent and `0`
are falsy (src/unnamed/part_000 284-291 tests `condition.lt && ...`). -/
def condTruthyNum : Option ℚ → Bool
  | some q => decide (q ≠ 0)
  | none => false

/-- JS `docValue < t` for a numeric threshold.  Non-numeric document values
compare through coercion in JS; for the alphabetic strings and booleans of
this code base the claims never reach that case, and it is modelled as
false (the JS NaN outcome for non-numeric strings). -/
def jsNumLt (dv : Option Value) (t : ℚ) : Bool :=
  match dv with
  | some (Value.num n) => decide (n < t)
  | _ => false

/-- JS `docValue <= t` for a numeric threshold (see `jsNumLt`). -/
def jsNumLe (dv : Option Value) (t : ℚ) : Bool :=
  match dv with
  | some (Value.num n) => decide (n ≤ t)
  | _ => false

/-- JS `docValue > t` for a numeric threshold (see `jsNumLt`). -/
def jsNumGt (dv : Option Value) (t : ℚ) : Bool :=
  match dv with
  | some (Value.num n) => decide (t < n)
  | _ => false

/-- JS `docValue >= t` for a numeric threshold (see `jsNumLt`). -/
def jsNumGe (dv : Option Value) (t : ℚ) : Bool :=
  match dv with
  | some (Value.num n) => decide (t ≤ n)
  | _ => false

/-- The `else if` chain of range checks (src/unnamed/part_000 284-292): a
truthy `lt`/`lte`/`gt`/`gte` whose comparison fails excludes the document;
the chain stops at the first excluding condition. -/
def rangeChain (o : CondObj) (dv : Option Value) : Bool :=
  if condTruthyNum o.lt && jsNumGe dv (o.lt.getD 0) then false
  else if condTruthyNum o.lte && jsNumGt dv (o.lte.getD 0) then false
  else if condTruthyNum o.gt && jsNumLe dv (o.gt.getD 0) then false
  else if condTruthyNum o.gte && jsNumLt dv (o.gte.getD 0) then false
  else true

/-- Second pass of `#applyWhereClause` (src/unnamed/part_000 273-296): per
clause entry, a two-element `bt` array keeps values inside `[min, max]`
(and short-circuits the chain), otherwise the range chain runs. -/
def rangePass (wc : WhereClause) (d : Doc) : Bool :=
  wc.all (fun e =>
    match e.2 with
    | Cond.boolC _ => true
    | Cond.obj o =>
      let dv := d.lookup e.1
      match o.bt with
      | some l =>
        if l.length = 2 then
          match l with
          | [mn, mx] => !(jsNumLt dv mn || jsNumGt dv mx)
          | _ => true
        else rangeChain o dv
      | none => rangeChain o dv)

/-- Embeds `#applyWhereClause` (src/unnamed/part_000 239-297): the two
passes in source order. -/
def applyWhereClause (schema : Schema) (docs : List Doc) (wc : WhereClause) :
    Except String (List Doc) :=
  (wherePhase1 schema docs wc).map (fun ds => ds.filter (rangePass wc))

/-- All provided score thresholds lie strictly inside (0,1)
(src/unnamed/part_000 308-311 throws otherwise). -/
def scoreCondValid (sc : ScoreCond) : Bool :=
  [sc.gt, sc.lt, sc.eq].all (fun o =>
    match o with
    | some v => decide (0 < v ∧ v < 1)
    | none => true)

/-- Embeds `filterHitsByScore` (src/unnamed/part_000 299-326): absent
conditions pass everything through; present thresholds are validated to
(0,1) and then `gt`/`lt`/`eq` filter the hits by score. -/
def filterHitsByScore (hits : List Hit) (scoreConditions : Option ScoreCond) :
    Except String (List Hit) :=
  match scoreConditions with
  | none => .ok hits
  | some sc =>
    if scoreCondValid sc then
      .ok (hits.filter (fun hit =>
        !(match sc.gt with | some g => decide (hit.score ≤ g) | none => false)
        && !(match sc.lt with | some l => decide (l ≤ hit.score) | none => false)
        && !(match sc.eq with | some e => decide (hit.score ≠ e) | none => false)))
    else .error errScoreValue

/-! ### Cache key (src/unnamed/part_000 328-330)

`#createCacheKey` is `JSON.stringify({query, parameters})`.  The
serialization below reproduces its shape: an undefined `parameters` key is
omitted, object keys appear in declaration order, strings are quoted with
quote/backslash escaping.  Numbers are rendered as `num` or `num/den`
instead of the JS decimal expansion; both renderings are injective, which
is the only property of the rendering the cache behaviour depends on. -/

def quoteC : Char := Char.ofNat 34
def backslashC : Char := Char.ofNat 92
def obraceS : String := String.singleton (Char.ofNat 123)
def cbraceS : String := String.singleton (Char.ofNat 125)
def quoteS : String := String.singleton quoteC

def jsonEscape (s : String) : String :=
  String.mk (s.toList.foldr
    (fun c acc => if c = quoteC || c = backslashC then backslashC :: c :: acc else c :: acc) [])

def jsonStr (s : String) : String :=
  quoteS ++ jsonEscape s ++ quoteS

def qToStr (q : ℚ) : String :=
  if q.den = 1 then toString q.num else toString q.num ++ "/" ++ toString q.den

def jsonNumOpt (label : String) (o : Option ℚ) : List String :=
  match o with
  | some q => [jsonStr label ++ ":" ++ qToStr q]
  | none => []

def jsonValue : Value → String
  | .str s => jsonStr (String.mk s)
  | .num q => qToStr q
  | .bool b => if b then "true" else "false"

def jsonCondObj (o : CondObj) : String :=
  obraceS ++ String.intercalate "," (
    jsonNumOpt "lt" o.lt ++ jsonNumOpt "lte" o.lte
    ++ jsonNumOpt "gt" o.gt ++ jsonNumOpt "gte" o.gte
    ++ (match o.bt with
        | some l => [jsonStr "bt" ++ ":[" ++ String.intercalate "," (l.map qToStr) ++ "]"]
        | none => [])
    ++ (match o.eq with
        | some v => [jsonStr "eq" ++ ":" ++ jsonValue v]
        | none => [])
    ++ (match o.inc with
        | some v => [jsonStr "inc" ++ ":" ++ jsonValue v]
        | none => [])) ++ cbraceS

def jsonCond : Cond → String
  | .obj o => jsonCondObj o
  | .boolC b => if b then "true" else "false"

def jsonFieldParams (fp : FieldParams) : String :=
  obraceS ++ (match fp.weight with
    | some w => jsonStr "weight" ++ ":" ++ qToStr w
    | none => "") ++ cbraceS

def jsonPairs (l : List (String × String)) : String :=
  obraceS ++ String.intercalate "," (l.map (fun p => jsonStr p.1 ++ ":" ++ p.2)) ++ cbraceS

def jsonParams (p : Params) : String :=
  obraceS ++ String.intercalate "," (
    (match p.fields with
     | some fl => [jsonStr "fields" ++ ":" ++ jsonPairs (fl.map (fun e => (e.1, jsonFieldParams e.2)))]
     | none => [])
    ++ (match p.whereC with
        | some wc => [jsonStr "where" ++ ":" ++ jsonPairs (wc.map (fun e => (e.1, jsonCond e.2)))]
        | none => [])
    ++ (match p.score with
        | some sc =>
          [jsonStr "score" ++ ":" ++ obraceS
            ++ String.intercalate "," (jsonNumOpt "gt" sc.gt ++ jsonNumOpt "lt" sc.lt ++ jsonNumOpt "eq" sc.eq)
            ++ cbraceS]
        | none => [])) ++ cbraceS

/-- Embeds `#createCacheKey` (src/unnamed/part_000 328-330):
`JSON.stringify({query, parameters})`; the whole parameters object,
including any `score` clause, is part of the key. -/
def createCacheKey (query : String) (params : Option Params) : String :=
  obraceS ++ jsonStr "query" ++ ":" ++ jsonStr query
  ++ (match params with
      | some p => "," ++ jsonStr "parameters" ++ ":" ++ jsonParams p
      | none => "") ++ cbraceS

/-! ### The search pipeline (src/unnamed/part_000 64-133) -/

/-- Query tokenization (src/unnamed/part_000 79): lowercase, split on
whitespace, sanitize and stem every word. -/
def queryToWords (query : String) : List Str :=
  (splitWs (lowerStr query.toList)).map (fun word => stemmer (sanitizeText word))

/-- Candidate retrieval (src/unnamed/part_000 80-89): for each query word,
every index term within edit distance 2 contributes its bucket; the
accumulating `Set` keeps first-insertion order without duplicates. -/
def candidates (index : List (Str × List Doc)) (queryWords : List Str) : List Doc :=
  queryWords.foldl (fun acc qw =>
    index.foldl (fun acc p =>
      if levenshteinDistance qw p.1 < 3 then
        p.2.foldl (fun acc d => if acc.contains d then acc else acc ++ [d]) acc
      else acc) acc) []

/-- Insertion step of the stable descending sort: a scored document goes
after every earlier entry whose score is at least its own. -/
def insertDesc (x : ℚ × Doc) : List (ℚ × Doc) → List (ℚ × Doc)
  | [] => [x]
  | y :: rest => if y.1 < x.1 then x :: y :: rest else y :: insertDesc x rest

/-- The descending sort `(a, b) => b.score - a.score`
(src/unnamed/part_000 104).  JS `Array.prototype.sort` is stable and the
comparator induces a total preorder on scores, so its output is exactly
the stable descending ordering, which this insertion sort computes. -/
def sortHits (l : List (ℚ × Doc)) : List (ℚ × Doc) :=
  l.foldl (fun acc x => insertDesc x acc) []

/-- Structural deduplication keeping the first (highest-ranked) occurrence
(src/unnamed/part_000 106-116); the `JSON.stringify` keys identify exactly
the documents that are equal as ordered key-value lists. -/
def dedupHits : List (ℚ × Doc) → List Doc → List Hit
  | [], _ => []
  | (sc, d) :: rest, seen =>
    if seen.contains d then dedupHits rest seen
    else { score := sc, document := d } :: dedupHits rest (d :: seen)

/-- Scoring, zero-score drop, sort and dedup
(src/unnamed/part_000 98-116). -/
def rankedHits (docsToScore : List Doc) (queryWords : List Str) (fields : List Field)
    (schema : Schema) : List Hit :=
  let scored := docsToScore.map (fun d => (scoreDoc d queryWords fields schema, d))
  dedupHits (sortHits (scored.filter (fun p => decide (0 < p.1)))) []

/-- The cache-miss computation of `search` up to the cache write
(src/unnamed/part_000 79-116), parametrized by exactly the state components
it reads. -/
def pipeline (index : List (Str × List Doc)) (fields : List Field) (schema : Schema)
    (query : String) (whereC : Option WhereClause) : Except String (List Hit) :=
  let queryWords := queryToWords query
  let relevantDocs := candidates index queryWords
  match whereC with
  | none => .ok (rankedHits relevantDocs queryWords fields schema)
  | some wc => (applyWhereClause schema relevantDocs wc).map
      (fun ds => rankedHits ds queryWords fields schema)

/-- The search response; `elapsed` (wall-clock timing) and the `sortBy`
closure are outside the model. -/
structure SearchResult where
  count : Nat
  hits : List Hit
  deriving DecidableEq, Repr

/-- JS `parameters.score`: reading `score` off an undefined `parameters`
throws a TypeError, which the surrounding `try` rethrows as an `Error`
(src/unnamed/part_000 75, 120, 130-132). -/
def paramsScore : Option Params → Except String (Option ScoreCond)
  | none => .error errScoreUndefined
  | some p => .ok p.score

/-- `Map.set` for the query cache: overwrite in place or append. -/
def cacheSet (c : List (String × List Hit)) (k : String) (v : List Hit) :
    List (String × List Hit) :=
  if (c.lookup k).isSome then c.map (fun p => if p.1 == k then (p.1, v) else p)
  else c ++ [(k, v)]

/-- Embeds `search` (src/unnamed/part_000 64-133).  Parameter handling runs
before the cache probe; a cache hit answers with the cached list filtered by
`parameters.score` (its `count` is the unfiltered length, per source line
74); a miss runs the pipeline, stores the pre-score-filter hits under the
key, then filters.  On a thrown error the partially mutated state is not
returned (no claim depends on it). -/
def search (s : Engine) (query : String) (params : Option Params) :
    Except String (SearchResult × Engine) :=
  match handleParameters s params with
  | .error e => .error e
  | .ok s1 =>
    match s1.cache.lookup (createCacheKey query params) with
    | some cachedResults =>
      match paramsScore params with
      | .error e => .error e
      | .ok sc =>
        match filterHitsByScore cachedResults sc with
        | .error e => .error e
        | .ok hits => .ok ({ count := cachedResults.length, hits := hits }, s1)
    | none =>
      match pipeline s1.index s1.fields s1.schema query (params.bind Params.whereC) with
      | .error e => .error e
      | .ok preHits =>
        match paramsScore params with
        | .error e => .error e
        | .ok sc =>
          match filterHitsByScore preHits sc with
          | .error e => .error e
          | .ok hits =>
            .ok ({ count := hits.length, hits := hits },
              { s1 with cache := cacheSet s1.cache (createCacheKey query params) preHits })

/-! ### Derived predicates and concrete scenario data -/

/-- Validity of an optional score clause: every provided threshold lies in
(0,1), so `filterHitsByScore` succeeds. -/
def validScoreOpt : Option ScoreCond → Bool
  | none => true
  | some sc => scoreCondValid sc

/-- The inverted-index invariant of spec §3: a term key exists iff its set
is non-empty. -/
def indexNonempty (s : Engine) : Prop :=
  ∀ p ∈ s.index, p.2 ≠ ([] : List Doc)

/-- Every document reachable from the store or from any index bucket
validates against the engine schema. -/
def allStoredValid (s : Engine) : Prop :=
  (∀ d ∈ s.docs, validateDoc s.schema d = true) ∧
  (∀ p ∈ s.index, ∀ d ∈ p.2, validateDoc s.schema d = true)

/-- Schema of the spec §8 scenario. -/
def bookSchema : Schema := [( "title", FieldType.string), ( "year", FieldType.number)]

/-- First document of the spec §8 scenario. -/
def gatsbyDoc : Doc :=
  [( "title", Value.str ( "The Great Gatsby".toList)), ( "year", Value.num 1925)]

/-- Second document of the spec §8 scenario. -/
def expectationsDoc : Doc :=
  [( "title", Value.str ( "Great Expectations".toList)), ( "year", Value.num 1861)]

/-- The spec §8 engine: both books inserted by `addDoc` in listed order. -/
def twoBooksEngine : Engine :=
  runOps (initEngine bookSchema) [Op.add gatsbyDoc, Op.add expectationsDoc]

/-- One-string-field schema for the weight-persistence scenario. -/
def titleSchema : Schema := [( "title", FieldType.string)]

/-- Document for the weight-persistence scenario. -/
def titleDoc : Doc := [( "title", Value.str ( "great".toList))]

/-- Engine for the weight-persistence scenario. -/
def titleEngine : Engine := runOps (initEngine titleSchema) [Op.add titleDoc]

/-! ## Theorems

### Edit-distance theory (claim C4) -/

theorem levH_nil_right (xs : Str) : levH xs [] = xs.length := by
  cases xs <;> simp [levH]

theorem Tr_nil_left (ys : Str) : Tr [] ys ys.length := by
  induction ys with
  | nil => exact Tr.nil
  | cons y ys ih => exact Tr.ins y ih

theorem Tr_nil_right (xs : Str) : Tr xs [] xs.length := by
  induction xs with
  | nil => exact Tr.nil
  | cons x xs ih => exact Tr.del x ih

theorem Tr.snocCopy {xs ys : Str} {n : Nat} (c : Char) (h : Tr xs ys n) :
    Tr (xs ++ [c]) (ys ++ [c]) n := by
  induction h with
  | nil => exact Tr.copy c Tr.nil
  | copy e _ ih => exact Tr.copy e ih
  | subst e d _ ih => exact Tr.subst e d ih
  | del e _ ih => exact Tr.del e ih
  | ins d _ ih => exact Tr.ins d ih

theorem Tr.snocSubst {xs ys : Str} {n : Nat} (c d : Char) (h : Tr xs ys n) :
    Tr (xs ++ [c]) (ys ++ [d]) (n + 1) := by
  induction h with
  | nil => exact Tr.subst c d Tr.nil
  | copy e _ ih => exact Tr.copy e ih
  | subst e f _ ih => exact Tr.subst e f ih
  | del e _ ih => exact Tr.del e ih
  | ins f _ ih => exact Tr.ins f ih

theorem Tr.snocDel {xs ys : Str} {n : Nat} (c : Char) (h : Tr xs ys n) :
    Tr (xs ++ [c]) ys (n + 1) := by
  induction h with
  | nil => exact Tr.del c Tr.nil
  | copy e _ ih => exact Tr.copy e ih
  | subst e f _ ih => exact Tr.subst e f ih
  | del e _ ih => exact Tr.del e ih
  | ins f _ ih => exact Tr.ins f ih

theorem Tr.snocIns {xs ys : Str} {n : Nat} (d : Char) (h : Tr xs ys n) :
    Tr xs (ys ++ [d]) (n + 1) := by
  induction h with
  | nil => exact Tr.ins d Tr.nil
  | copy e _ ih => exact Tr.copy e ih
  | subst e f _ ih => exact Tr.subst e f ih
  | del e _ ih => exact Tr.del e ih
  | ins f _ ih => exact Tr.ins f ih

theorem Tr.rev {xs ys : Str} {n : Nat} (h : Tr xs ys n) :
    Tr xs.reverse ys.reverse n := by
  induction h with
  | nil => exact Tr.nil
  | copy c _ ih => simpa [List.reverse_cons] using ih.snocCopy c
  | subst c d _ ih => simpa [List.reverse_cons] using ih.snocSubst c d
  | del c _ ih => simpa [List.reverse_cons] using ih.snocDel c
  | ins d _ ih => simpa [List.reverse_cons] using ih.snocIns d

theorem levH_bounds :
    ∀ N xs ys, List.length xs + List.length ys ≤ N →
      (∀ x : Char, levH (x :: xs) ys ≤ 1 + levH xs ys) ∧
      (∀ y : Char, levH xs (y :: ys) ≤ 1 + levH xs ys) ∧
      (∀ y : Char, levH xs ys ≤ 1 + levH xs (y :: ys)) ∧
      (∀ x : Char, levH xs ys ≤ 1 + levH (x :: xs) ys) := by
  intro N
  induction N with
  | zero =>
    intro xs ys hlen
    have hx : xs = [] := by cases xs <;> simp_all
    have hy : ys = [] := by cases ys <;> simp_all
    subst hx; subst hy
    refine ⟨fun x => ?_, fun y => ?_, fun y => ?_, fun x => ?_⟩ <;> simp [levH, levH_nil_right]
  | succ N ih =>
    intro xs ys hlen
    refine ⟨fun x => ?_, fun y => ?_, fun y => ?_, fun x => ?_⟩
    · -- A: delete-head bound
      cases ys with
      | nil => simp [levH, levH_nil_right]; omega
      | cons y ys' =>
        by_cases hxy : y = x
        · rw [hxy]
          have hC := (ih xs ys' (by simp at hlen ⊢; omega)).2.2.1 x
          simpa [levH] using hC
        · simp only [levH, if_neg hxy]
          omega
    · -- B: insert-head bound
      cases xs with
      | nil => simp [levH]; omega
      | cons x xs' =>
        by_cases hxy : y = x
        · rw [hxy]
          have hD := (ih xs' ys (by simp at hlen ⊢; omega)).2.2.2 x
          simpa [levH] using hD
        · simp only [levH, if_neg hxy]
          omega
    · -- C: the distance grows by at most 1 when a head is added to the target
      cases xs with
      | nil => simp [levH]; omega
      | cons x xs' =>
        by_cases hxy : y = x
        · rw [hxy]
          have hA := (ih xs' ys (by simp at hlen ⊢; omega)).1 x
          simpa [levH] using hA
        · have hA := (ih xs' ys (by simp at hlen ⊢; omega)).1 x
          have hC := (ih xs' ys (by simp at hlen ⊢; omega)).2.2.1 y
          simp only [levH, if_neg hxy]
          omega
    · -- D: the distance grows by at most 1 when a head is added to the source
      cases ys with
      | nil => simp [levH, levH_nil_right]; omega
      | cons y ys' =>
        by_cases hxy : y = x
        · rw [hxy]
          have hB := (ih xs ys' (by simp at hlen ⊢; omega)).2.1 x
          simpa [levH] using hB
        · have hB := (ih xs ys' (by simp at hlen ⊢; omega)).2.1 y
          have hD := (ih xs ys' (by simp at hlen ⊢; omega)).2.2.2 x
          simp only [levH, if_neg hxy]
          omega

theorem tr_levH : ∀ N xs ys, List.length xs + List.length ys ≤ N → Tr xs ys (levH xs ys) := by
  intro N
  induction N with
  | zero =>
    intro xs ys hlen
    have hx : xs = [] := by cases xs <;> simp_all
    have hy : ys = [] := by cases ys <;> simp_all
    subst hx; subst hy
    simpa [levH] using Tr.nil
  | succ N ih =>
    intro xs ys hlen
    match xs, ys with
    | [], ys => simpa [levH] using Tr_nil_left ys
    | x :: xs', [] => simpa [levH_nil_right] using Tr_nil_right (x :: xs')
    | x :: xs', y :: ys' =>
      by_cases hxy : y = x
      · rw [hxy]
        simpa [levH] using Tr.copy x (ih xs' ys' (by simp at hlen ⊢; omega))
      · simp only [levH, if_neg hxy]
        rcases min_cases (levH xs' ys') (min (levH xs' (y :: ys')) (levH (x :: xs') ys')) with
          ⟨h1, _⟩ | ⟨h1, _⟩
        · rw [h1, Nat.add_comm]
          exact Tr.subst x y (ih xs' ys' (by simp at hlen ⊢; omega))
        · rw [h1]
          rcases min_cases (levH xs' (y :: ys')) (levH (x :: xs') ys') with ⟨h2, _⟩ | ⟨h2, _⟩
          · rw [h2, Nat.add_comm]
            exact Tr.del x (ih xs' (y :: ys') (by simp at hlen ⊢; omega))
          · rw [h2, Nat.add_comm]
            exact Tr.ins y (ih (x :: xs') ys' (by simp at hlen ⊢; omega))

theorem levH_le {xs ys : Str} {n : Nat} (h : Tr xs ys n) : levH xs ys ≤ n := by
  induction h with
  | nil => simp [levH]
  | copy c _ ih => simpa [levH] using ih
  | @subst c d xs' ys' n' _ ih =>
    by_cases hcd : d = c
    · rw [hcd]
      have h' : levH (c :: xs') (c :: ys') = levH xs' ys' := by simp [levH]
      rw [h']
      omega
    · simp only [levH, if_neg hcd]; omega
  | @del c xs' ys' n' _ ih =>
    have hA := (levH_bounds (List.length xs' + List.length ys') xs' ys' le_rfl).1 c
    omega
  | @ins d xs' ys' n' _ ih =>
    have hB := (levH_bounds (List.length xs' + List.length ys') xs' ys' le_rfl).2.1 d
    omega

theorem levH_isLeast (xs ys : Str) : IsLeast {n | Tr xs ys n} (levH xs ys) :=
  ⟨tr_levH _ xs ys le_rfl, fun _ hn => levH_le hn⟩

theorem levTable_eq_levH (a b : Str) :
    ∀ i j, i ≤ b.length → j ≤ a.length →
      levTable a b i j = levH ((a.take j).reverse) ((b.take i).reverse) := by
  intro i
  induction i with
  | zero =>
    intro j _ hj
    simp [levTable, levH_nil_right, List.length_take]
    omega
  | succ i ihi =>
    intro j hi
    induction j with
    | zero =>
      intro _
      simp [levTable, levH, List.length_take]
      omega
    | succ j ihj =>
      intro hj
      have hja : j < a.length := by omega
      have hib : i < b.length := by omega
      have haj : (a.take (j + 1)).reverse = a.getD j ' ' :: (a.take j).reverse := by
        rw [List.take_succ]
        have : a[j]?.toList = [a.getD j ' '] := by
          rw [List.getElem?_eq_getElem hja]
          simp [List.getD_eq_getElem?_getD, List.getElem?_eq_getElem hja]
        rw [this]
        simp
      have hbi : (b.take (i + 1)).reverse = b.getD i ' ' :: (b.take i).reverse := by
        rw [List.take_succ]
        have : b[i]?.toList = [b.getD i ' '] := by
          rw [List.getElem?_eq_getElem hib]
          simp [List.getD_eq_getElem?_getD, List.getElem?_eq_getElem hib]
        rw [this]
        simp
      rw [levTable, haj, hbi]
      by_cases hc : b.getD i ' ' = a.getD j ' '
      · simp only [if_pos hc, levH, if_pos hc]
        exact ihi j (by omega) (by omega)
      · simp only [if_neg hc, levH, if_neg hc]
        rw [ihi j (by omega) (by omega), ihi (j + 1) (by omega) (by omega),
          ihj (by omega), haj, hbi]

theorem tableSeg_succ (a b : Str) (i j₀ c : Nat) :
    tableSeg a b i j₀ (c + 1) = levTable a b i j₀ :: tableSeg a b i (j₀ + 1) c := by
  unfold tableSeg
  rw [List.range_succ_eq_map, List.map_cons, List.map_map]
  have h2 : (List.range c).map ((fun k => levTable a b i (j₀ + k)) ∘ Nat.succ) =
      (List.range c).map (fun k => levTable a b i (j₀ + 1 + k)) := by
    apply List.map_congr_left
    intro k _
    simp only [Function.comp_apply]
    congr 1
    omega
  rw [h2]
  simp

theorem levGo_eq_tableSeg (a b : Str) (i : Nat) :
    ∀ (arest : Str) (j₀ : Nat), arest = a.drop j₀ → j₀ ≤ a.length →
      levGo (b.getD i ' ') arest (tableSeg a b i j₀ (a.length + 1 - j₀))
          (levTable a b (i + 1) j₀) =
        tableSeg a b (i + 1) (j₀ + 1) (a.length - j₀) := by
  intro arest
  induction arest with
  | nil =>
    intro j₀ hdrop hle
    have hj : j₀ = a.length := by
      have := congrArg List.length hdrop
      simp [List.length_drop] at this
      omega
    subst hj
    simp [levGo, tableSeg]
  | cons ac arest' ih =>
    intro j₀ hdrop hle
    have hlt : j₀ < a.length := by
      have := congrArg List.length hdrop
      simp [List.length_drop] at this
      omega
    have hac : a.getD j₀ ' ' = ac := by
      have h0 : (a.drop j₀)[0]? = some ac := by rw [← hdrop]; simp
      rw [List.getElem?_drop] at h0
      simp only [Nat.add_zero] at h0
      simp [List.getD_eq_getElem?_getD, h0]
    have hdrop' : arest' = a.drop (j₀ + 1) := by
      have hcalc : a.drop (j₀ + 1) = arest' := by
        calc a.drop (j₀ + 1) = (a.drop j₀).drop 1 := (List.drop_drop 1 j₀ a).symm
          _ = (ac :: arest').drop 1 := by rw [← hdrop]
          _ = arest' := by simp
      exact hcalc.symm
    have hc1 : a.length + 1 - j₀ = (a.length - j₀) + 1 := by omega
    have hc2 : a.length - j₀ = (a.length - (j₀ + 1)) + 1 := by omega
    have hprev : tableSeg a b i j₀ (a.length + 1 - j₀) =
        levTable a b i j₀ :: levTable a b i (j₀ + 1) ::
          tableSeg a b i (j₀ + 1 + 1) (a.length - (j₀ + 1)) := by
      rw [hc1, tableSeg_succ, hc2, tableSeg_succ]
    have hrhs : tableSeg a b (i + 1) (j₀ + 1) (a.length - j₀) =
        levTable a b (i + 1) (j₀ + 1) ::
          tableSeg a b (i + 1) (j₀ + 1 + 1) (a.length - (j₀ + 1)) := by
      rw [hc2, tableSeg_succ]
    rw [hprev, hrhs, levGo]
    have hcur : (if b.getD i ' ' = ac then levTable a b i j₀
        else 1 + min (levTable a b i j₀)
          (min (levTable a b (i + 1) j₀)
            ((levTable a b i (j₀ + 1) ::
              tableSeg a b i (j₀ + 1 + 1) (a.length - (j₀ + 1))).headD 0)))
        = levTable a b (i + 1) (j₀ + 1) := by
      simp only [List.headD_cons]
      rw [← hac]
      conv_rhs => rw [levTable]
    rw [hcur]
    congr 1
    have hih := ih (j₀ + 1) hdrop' (by omega)
    rw [(by omega : a.length + 1 - (j₀ + 1) = (a.length - (j₀ + 1)) + 1), tableSeg_succ] at hih
    exact hih

theorem levFold_eq (a b : Str) :
    ∀ (brest : List Char) (i : Nat), brest = b.drop i → i ≤ b.length →
      levFold a brest (tableSeg a b i 0 (a.length + 1)) i =
        tableSeg a b b.length 0 (a.length + 1) := by
  intro brest
  induction brest with
  | nil =>
    intro i hdrop hle
    have hi : i = b.length := by
      have := congrArg List.length hdrop
      simp [List.length_drop] at this
      omega
    subst hi
    rfl
  | cons bc brest' ih =>
    intro i hdrop hle
    have hlt : i < b.length := by
      have := congrArg List.length hdrop
      simp [List.length_drop] at this
      omega
    have hbc : b.getD i ' ' = bc := by
      have h0 : (b.drop i)[0]? = some bc := by rw [← hdrop]; simp
      rw [List.getElem?_drop] at h0
      simp only [Nat.add_zero] at h0
      simp [List.getD_eq_getElem?_getD, h0]
    have hdrop' : brest' = b.drop (i + 1) := by
      have hcalc : b.drop (i + 1) = brest' := by
        calc b.drop (i + 1) = (b.drop i).drop 1 := (List.drop_drop 1 i b).symm
          _ = (bc :: brest').drop 1 := by rw [← hdrop]
          _ = brest' := by simp
      exact hcalc.symm
    rw [levFold]
    have hrow : ((i + 1) :: levGo bc a (tableSeg a b i 0 (a.length + 1)) (i + 1)) =
        tableSeg a b (i + 1) 0 (a.length + 1) := by
      conv_rhs => rw [tableSeg_succ]
      have hl0 : levTable a b (i + 1) 0 = i + 1 := by rw [levTable]
      rw [hl0]
      congr 1
      have h := levGo_eq_tableSeg a b i a 0 rfl (by omega)
      rw [(by omega : a.length + 1 - 0 = a.length + 1), hl0,
        (by omega : a.length - 0 = a.length), hbc] at h
      exact h
    rw [hrow]
    exact ih (i + 1) hdrop' (by omega)

theorem levenshteinDistance_eq_levTable (a b : Str) :
    levenshteinDistance a b = levTable a b b.length a.length := by
  unfold levenshteinDistance
  have hinit : List.range (a.length + 1) = tableSeg a b 0 0 (a.length + 1) := by
    unfold tableSeg
    conv_lhs => rw [← List.map_id (List.range (a.length + 1))]
    apply List.map_congr_left
    intro k _
    have h0 : levTable a b 0 (0 + k) = 0 + k := by rw [levTable]
    rw [h0]
    simp
  rw [hinit, levFold_eq a b b 0 (by simp) (by omega)]
  have hget : ((List.range (a.length + 1)).map
      (fun k => levTable a b b.length (0 + k)))[a.length]? =
      some (levTable a b b.length a.length) := by
    rw [List.getElem?_map, List.getElem?_range (by omega)]
    simp
  unfold tableSeg
  rw [List.getD_eq_getElem?_getD, hget]
  rfl

/-- C4: for every pair of strings, the embedded `#levenshteinDistance` —
the row-by-row fill of the `(len b + 1) × (len a + 1)`
dynamic-programming table — equals the corner entry of the standard table
`levTable` and is the least number of unit-cost single-character
insertions, deletions and substitutions transforming `a` into `b`. -/
theorem c4_levenshtein_least (a b : Str) :
    IsLeast {n | Tr a b n} (levenshteinDistance a b) ∧
      levenshteinDistance a b = levTable a b b.length a.length := by
  have hbridge := levenshteinDistance_eq_levTable a b
  have htab : levenshteinDistance a b = levH a.reverse b.reverse := by
    rw [hbridge]
    have h := levTable_eq_levH a b b.length a.length le_rfl le_rfl
    simpa [List.take_length] using h
  refine ⟨⟨?_, ?_⟩, hbridge⟩
  · rw [htab]
    have h1 := (levH_isLeast a.reverse b.reverse).1
    simpa [List.reverse_reverse] using h1.rev
  · intro n hn
    rw [htab]
    exact levH_le hn.rev

/-! ### Engine invariants (claims C3 and C6) -/

theorem foldl_invariant {α β : Type _} (f : β → α → β) (P : β → Prop) :
    ∀ (l : List α) (b : β), P b → (∀ b a, P b → P (f b a)) → P (l.foldl f b) := by
  intro l
  induction l with
  | nil => intro b hb _; exact hb
  | cons a l ih => intro b hb h; exact ih (f b a) (h b a hb) h

theorem mem_bucketAdd {ds : List Doc} {d x : Doc} (hx : x ∈ bucketAdd ds d) : x ∈ ds ∨ x = d := by
  unfold bucketAdd at hx
  split at hx
  · exact Or.inl hx
  · rcases List.mem_append.mp hx with h | h
    · exact Or.inl h
    · simp at h; exact Or.inr h

theorem bucketAdd_ne_nil (ds : List Doc) (d : Doc) : bucketAdd ds d ≠ [] := by
  unfold bucketAdd
  split
  · next hc => intro h; rw [h] at hc; simp at hc
  · simp

theorem indexAdd_nonempty {idx : List (Str × List Doc)} {t : Str} {d : Doc}
    (h : ∀ p ∈ idx, p.2 ≠ ([] : List Doc)) :
    ∀ p ∈ indexAdd idx t d, p.2 ≠ ([] : List Doc) := by
  intro p hp
  unfold indexAdd at hp
  split at hp
  · rcases List.mem_map.mp hp with ⟨q, hq, hfq⟩
    split at hfq
    · rw [← hfq]; exact bucketAdd_ne_nil q.2 d
    · rw [← hfq]; exact h q hq
  · rcases List.mem_append.mp hp with hmem | hmem
    · exact h p hmem
    · simp at hmem; rw [hmem]; simp

theorem indexAdd_valid {schema : Schema} {idx : List (Str × List Doc)} {t : Str} {d : Doc}
    (h : ∀ p ∈ idx, ∀ x ∈ p.2, validateDoc schema x = true)
    (hd : validateDoc schema d = true) :
    ∀ p ∈ indexAdd idx t d, ∀ x ∈ p.2, validateDoc schema x = true := by
  intro p hp x hx
  unfold indexAdd at hp
  split at hp
  · rcases List.mem_map.mp hp with ⟨q, hq, hfq⟩
    split at hfq
    · rw [← hfq] at hx
      rcases mem_bucketAdd hx with hmem | rfl
      · exact h q hq x hmem
      · exact hd
    · rw [← hfq] at hx; exact h q hq x hx
  · rcases List.mem_append.mp hp with hmem | hmem
    · exact h p hmem x hx
    · simp at hmem; rw [hmem] at hx; simp at hx; rw [hx]; exact hd

theorem foldl_indexAdd_nonempty (doc : Doc) :
    ∀ (terms : List Str) (idx : List (Str × List Doc)),
      (∀ p ∈ idx, p.2 ≠ ([] : List Doc)) →
      ∀ p ∈ terms.foldl (fun idx term => indexAdd idx (stemmer term) doc) idx, p.2 ≠ ([] : List Doc) := by
  intro terms
  induction terms with
  | nil => intro idx h; exact h
  | cons t rest ih =>
    intro idx h
    exact ih _ (indexAdd_nonempty h)

theorem foldl_indexAdd_valid {schema : Schema} (doc : Doc) (hd : validateDoc schema doc = true) :
    ∀ (terms : List Str) (idx : List (Str × List Doc)),
      (∀ p ∈ idx, ∀ x ∈ p.2, validateDoc schema x = true) →
      ∀ p ∈ terms.foldl (fun idx term => indexAdd idx (stemmer term) doc) idx,
        ∀ x ∈ p.2, validateDoc schema x = true := by
  intro terms
  induction terms with
  | nil => intro idx h; exact h
  | cons t rest ih =>
    intro idx h
    exact ih _ (indexAdd_valid h hd)

theorem addToIndex_nonempty (schema : Schema) (doc : Doc) :
    ∀ (fields : List Field) (idx : List (Str × List Doc)),
      (∀ p ∈ idx, p.2 ≠ ([] : List Doc)) →
      ∀ p ∈ addToIndex schema fields idx doc, p.2 ≠ ([] : List Doc) := by
  intro fields
  induction fields with
  | nil => intro idx h; exact h
  | cons field rest ih =>
    intro idx h
    unfold addToIndex
    rw [List.foldl_cons]
    have hstep : ∀ p ∈ (match doc.lookup field.name, schema.lookup field.name with
        | some (Value.str content), some FieldType.string =>
          (splitWs (sanitizeText content)).foldl (fun idx term => indexAdd idx (stemmer term) doc) idx
        | _, _ => idx), p.2 ≠ ([] : List Doc) := by
      split
      · exact foldl_indexAdd_nonempty doc _ idx h
      · exact h
    exact ih _ hstep

theorem addToIndex_valid {schema : Schema} (doc : Doc) (hd : validateDoc schema doc = true) :
    ∀ (fields : List Field) (idx : List (Str × List Doc)),
      (∀ p ∈ idx, ∀ x ∈ p.2, validateDoc schema x = true) →
      ∀ p ∈ addToIndex schema fields idx doc, ∀ x ∈ p.2, validateDoc schema x = true := by
  intro fields
  induction fields with
  | nil => intro idx h; exact h
  | cons field rest ih =>
    intro idx h
    unfold addToIndex
    rw [List.foldl_cons]
    have hstep : ∀ p ∈ (match doc.lookup field.name, schema.lookup field.name with
        | some (Value.str content), some FieldType.string =>
          (splitWs (sanitizeText content)).foldl (fun idx term => indexAdd idx (stemmer term) doc) idx
        | _, _ => idx), ∀ x ∈ p.2, validateDoc schema x = true := by
      split
      · exact foldl_indexAdd_valid doc hd _ idx h
      · exact h
    exact ih _ hstep

theorem addDoc_ok_cases {s s' : Engine} {doc : Doc} (h : addDoc s doc = .ok s') :
    validateDoc s.schema doc = true ∧
      s' = { s with docs := s.docs ++ [doc], index := addToIndex s.schema s.fields s.index doc } := by
  unfold addDoc at h
  split at h
  · next hv => exact ⟨hv, by injection h with h'; rw [← h']⟩
  · exact absurd h (by simp)

theorem addDoc_error_cases {s : Engine} {e : String} {doc : Doc} (h : addDoc s doc = .error e) :
    validateDoc s.schema doc = false := by
  unfold addDoc at h
  split at h
  · exact absurd h (by simp)
  · next hv => simpa using hv

/-- The state predicate shared by the C3 and C6 histories: constant schema,
non-empty buckets, validated store and buckets. -/
def engineInv (schema : Schema) (s : Engine) : Prop :=
  s.schema = schema ∧ indexNonempty s ∧
    (∀ d ∈ s.docs, validateDoc schema d = true) ∧
    (∀ p ∈ s.index, ∀ x ∈ p.2, validateDoc schema x = true)

theorem addDoc_inv {schema : Schema} {s s' : Engine} {doc : Doc}
    (hs : engineInv schema s) (h : addDoc s doc = .ok s') : engineInv schema s' := by
  obtain ⟨hsch, hne, hdocs, hidx⟩ := hs
  subst hsch
  obtain ⟨hv, rfl⟩ := addDoc_ok_cases h
  refine ⟨rfl, ?_, ?_, ?_⟩
  · intro p hp
    exact addToIndex_nonempty s.schema doc s.fields s.index hne p hp
  · intro d hd
    rcases List.mem_append.mp hd with hmem | hmem
    · exact hdocs d hmem
    · simp at hmem; rw [hmem]; exact hv
  · intro p hp x hx
    exact addToIndex_valid doc hv s.fields s.index hidx p hp x hx

theorem processBatch_inv {schema : Schema} :
    ∀ (b : List Doc) (s : Engine), engineInv schema s → engineInv schema (processBatch s b).1 := by
  intro b
  induction b with
  | nil => intro s hs; exact hs
  | cons d rest ih =>
    intro s hs
    unfold processBatch
    cases hd : addDoc s d with
    | ok s' => exact ih s' (addDoc_inv hs hd)
    | error e => exact hs

theorem addDocsRun_inv {schema : Schema} :
    ∀ (bs : List (List Doc)) (s : Engine), engineInv schema s → engineInv schema (addDocsRun s bs).1 := by
  intro bs
  induction bs with
  | nil => intro s hs; exact hs
  | cons b rest ih =>
    intro s hs
    have h1 := @processBatch_inv schema b s hs
    unfold addDocsRun
    cases hb : processBatch s b with
    | mk s' ok =>
      cases ok with
      | true => exact ih s' (by rw [hb] at h1; exact h1)
      | false => simpa using (by rw [hb] at h1; exact h1)

theorem removeDocFromIndex_nonempty {idx : List (Str × List Doc)} {d : Doc}
    (h : ∀ p ∈ idx, p.2 ≠ ([] : List Doc)) :
    ∀ p ∈ removeDocFromIndex idx d, p.2 ≠ ([] : List Doc) := by
  intro p hp
  unfold removeDocFromIndex at hp
  rcases List.mem_filterMap.mp hp with ⟨q, hq, hfq⟩
  revert hfq
  split
  · next hqe => intro hfq; exact absurd (List.isEmpty_iff.mp hqe) (h q hq)
  · split
    · intro hfq; exact absurd hfq (by simp)
    · next hne =>
      intro hfq
      injection hfq with hfq
      rw [← hfq]
      simpa [List.isEmpty_iff] using hne

theorem removeDocFromIndex_no_equal (idx : List (Str × List Doc)) (d : Doc) :
    ∀ p ∈ removeDocFromIndex idx d, ∀ x ∈ p.2, docEquals x d = false := by
  intro p hp x hx
  unfold removeDocFromIndex at hp
  rcases List.mem_filterMap.mp hp with ⟨q, hq, hfq⟩
  revert hfq
  split
  · next hqe =>
    intro hfq
    injection hfq with hfq
    rw [← hfq] at hx
    rw [List.isEmpty_iff.mp hqe] at hx
    simp at hx
  · split
    · intro hfq; exact absurd hfq (by simp)
    · intro hfq
      injection hfq with hfq
      rw [← hfq] at hx
      have := List.mem_filter.mp hx
      simpa using this.2

theorem removeDocFromIndex_valid {schema : Schema} {idx : List (Str × List Doc)} {d : Doc}
    (h : ∀ p ∈ idx, ∀ x ∈ p.2, validateDoc schema x = true) :
    ∀ p ∈ removeDocFromIndex idx d, ∀ x ∈ p.2, validateDoc schema x = true := by
  intro p hp x hx
  unfold removeDocFromIndex at hp
  rcases List.mem_filterMap.mp hp with ⟨q, hq, hfq⟩
  revert hfq
  split
  · intro hfq
    injection hfq with hfq
    rw [← hfq] at hx
    exact h q hq x hx
  · split
    · intro hfq; exact absurd hfq (by simp)
    · intro hfq
      injection hfq with hfq
      rw [← hfq] at hx
      exact h q hq x (List.mem_filter.mp hx).1

theorem removeDoc_inv {schema : Schema} {s : Engine} {d : Doc}
    (hs : engineInv schema s) : engineInv schema (removeDoc s d) := by
  obtain ⟨hsch, hne, hdocs, hidx⟩ := hs
  refine ⟨hsch, ?_, ?_, ?_⟩
  · intro p hp
    exact removeDocFromIndex_nonempty hne p hp
  · intro x hx
    exact hdocs x (List.mem_filter.mp hx).1
  · intro p hp x hx
    exact removeDocFromIndex_valid hidx p hp x hx

theorem removeDocs_inv {schema : Schema} {s : Engine} {ds : List Doc}
    (hs : engineInv schema s) : engineInv schema (removeDocs s ds) := by
  unfold removeDocs
  refine foldl_invariant _ (engineInv schema) _ s hs ?_
  intro s' batch hs'
  exact foldl_invariant _ (engineInv schema) batch s' hs' (fun s'' d h'' => removeDoc_inv h'')

theorem applyOp_inv {schema : Schema} {s : Engine} (op : Op)
    (hs : engineInv schema s) : engineInv schema (applyOp s op).1 := by
  cases op with
  | add d =>
    simp only [applyOp]
    cases hd : addDoc s d with
    | ok s' => exact addDoc_inv hs hd
    | error e => exact hs
  | addMany ds => exact addDocsRun_inv _ _ hs
  | remove d => exact removeDoc_inv hs
  | removeMany ds => exact removeDocs_inv hs

theorem runOps_inv {schema : Schema} :
    ∀ (ops : List Op) (s : Engine), engineInv schema s → engineInv schema (runOps s ops) := by
  intro ops
  induction ops with
  | nil => intro s hs; exact hs
  | cons op rest ih =>
    intro s hs
    have h1 := @applyOp_inv schema s op hs
    unfold runOps
    cases hop : applyOp s op with
    | mk s' ok =>
      cases ok with
      | true => exact ih s' (by rw [hop] at h1; exact h1)
      | false => exact (by rw [hop] at h1; exact h1)

theorem initEngine_inv (schema : Schema) : engineInv schema (initEngine schema) := by
  refine ⟨rfl, ?_, ?_, ?_⟩ <;> intro p hp <;> simp [initEngine] at hp

/-- C3: after any call sequence on a fresh engine, every term key present in
the inverted index holds a non-empty document set, and a further
`removeDoc` leaves no document structurally equal to the removed one in any
bucket while still keeping every remaining bucket non-empty (buckets
emptied by the removal are deleted). -/
theorem c3_index_invariant (schema : Schema) (ops : List Op) (d : Doc) :
    indexNonempty (runOps (initEngine schema) ops) ∧
      (∀ p ∈ (removeDoc (runOps (initEngine schema) ops) d).index,
        p.2 ≠ ([] : List Doc) ∧ ∀ x ∈ p.2, docEquals x d = false) := by
  have hinv := @runOps_inv schema ops (initEngine schema) (initEngine_inv schema)
  obtain ⟨hsch, hne, hdocs, hidx⟩ := hinv
  refine ⟨hne, ?_⟩
  intro p hp
  exact ⟨removeDocFromIndex_nonempty hne p hp,
    removeDocFromIndex_no_equal _ _ p hp⟩

theorem processBatch_schema :
    ∀ (b : List Doc) (s : Engine), (processBatch s b).1.schema = s.schema := by
  intro b
  induction b with
  | nil => intro s; rfl
  | cons h rest ih =>
    intro s
    unfold processBatch
    cases hd : addDoc s h with
    | ok s' =>
      obtain ⟨_, rfl⟩ := addDoc_ok_cases hd
      exact ih _
    | error e => rfl

theorem processBatch_false_of_invalid :
    ∀ (b : List Doc) (s : Engine) (d : Doc), d ∈ b → validateDoc s.schema d = false →
      (processBatch s b).2 = false := by
  intro b
  induction b with
  | nil => intro s d hd; simp at hd
  | cons h rest ih =>
    intro s d hd hval
    unfold processBatch
    cases haddDoc : addDoc s h with
    | ok s' =>
      obtain ⟨hvh, hs'⟩ := addDoc_ok_cases haddDoc
      rcases List.mem_cons.mp hd with rfl | hmem
      · rw [hval] at hvh; exact absurd hvh (by simp)
      · refine ih s' d hmem ?_
        rw [hs']
        exact hval
    | error e => rfl

theorem mem_chunks100 {α : Type _} :
    ∀ (n : Nat) (l : List α), l.length ≤ n → ∀ d ∈ l, ∃ b ∈ chunks100 l, d ∈ b := by
  intro n
  induction n with
  | zero =>
    intro l hl d hd
    have : l = [] := by cases l <;> simp_all
    rw [this] at hd; simp at hd
  | succ n ih =>
    intro l hl d hd
    cases l with
    | nil => simp at hd
    | cons x xs =>
      rw [chunks100]
      have hsplit : d ∈ (x :: xs).take 100 ∨ d ∈ (x :: xs).drop 100 := by
        rcases List.mem_append.mp (by rw [List.take_append_drop 100 (x :: xs)]; exact hd) with h | h
        · exact Or.inl h
        · exact Or.inr h
      rcases hsplit with h | h
      · exact ⟨(x :: xs).take 100, by simp, h⟩
      · have hlen : ((x :: xs).drop 100).length ≤ n := by
          simp [List.length_drop] at hl ⊢; omega
        obtain ⟨b, hb, hdb⟩ := ih _ hlen d h
        exact ⟨b, List.mem_cons_of_mem _ hb, hdb⟩

theorem addDocsRun_false_of_invalid :
    ∀ (bs : List (List Doc)) (s : Engine) (d : Doc), (∃ b ∈ bs, d ∈ b) →
      validateDoc s.schema d = false → (addDocsRun s bs).2 = false := by
  intro bs
  induction bs with
  | nil => intro s d hmem _; simp at hmem
  | cons b rest ih =>
    intro s d hmem hval
    unfold addDocsRun
    cases hpb : processBatch s b with
    | mk s' ok =>
      cases ok with
      | true =>
        obtain ⟨b', hb', hdb'⟩ := hmem
        rcases List.mem_cons.mp hb' with rfl | hb'rest
        · have := processBatch_false_of_invalid b' s d hdb' hval
          rw [hpb] at this
          simp at this
        · refine ih s' d ⟨b', hb'rest, hdb'⟩ ?_
          have hsch := processBatch_schema b s
          rw [hpb] at hsch
          rw [hsch]
          exact hval
      | false => rfl

/-- C6: a document rejected by schema validation commits no mutation —
`addDoc` throws with the state untouched, `addDocs` throws whenever the
batch contains an invalid document, and after any call sequence on a fresh
engine an invalid document is in neither the store nor any index bucket. -/
theorem c6_reject_atomicity :
    (∀ (s : Engine) (d : Doc), validateDoc s.schema d = false →
      applyOp s (Op.add d) = (s, false)) ∧
    (∀ (s : Engine) (ds : List Doc) (d : Doc), d ∈ ds → validateDoc s.schema d = false →
      (applyOp s (Op.addMany ds)).2 = false) ∧
    (∀ (schema : Schema) (ops : List Op) (d : Doc), validateDoc schema d = false →
      d ∉ (runOps (initEngine schema) ops).docs ∧
      ∀ p ∈ (runOps (initEngine schema) ops).index, d ∉ p.2) := by
  refine ⟨?_, ?_, ?_⟩
  · intro s d hval
    simp [applyOp, addDoc, hval]
  · intro s ds d hd hval
    have hmem := mem_chunks100 ds.length ds le_rfl d hd
    exact addDocsRun_false_of_invalid _ s d hmem hval
  · intro schema ops d hval
    have hinv := @runOps_inv schema ops (initEngine schema) (initEngine_inv schema)
    obtain ⟨hsch, hne, hdocs, hidx⟩ := hinv
    constructor
    · intro hmem
      rw [hdocs d hmem] at hval
      exact absurd hval (by simp)
    · intro p hp hmem
      rw [hidx p hp d hmem] at hval
      exact absurd hval (by simp)

/-- Witness for C6 at a concrete schema, invalid document and history. -/
theorem c6_reject_atomicity_witness :
    applyOp (initEngine [( "title", FieldType.string)]) (Op.add [( "title", Value.num 3)]) =
        (initEngine [( "title", FieldType.string)], false) ∧
      (applyOp (initEngine [( "title", FieldType.string)])
        (Op.addMany [[( "title", Value.str ( "ok".toList))], [( "title", Value.num 3)]])).2 = false ∧
      [( "title", Value.num 3)] ∉
        (runOps (initEngine [( "title", FieldType.string)])
          [Op.add [( "title", Value.str ( "ok".toList))]]).docs :=
  ⟨c6_reject_atomicity.1 (initEngine [( "title", FieldType.string)])
      [( "title", Value.num 3)] (by decide),
    c6_reject_atomicity.2.1 (initEngine [( "title", FieldType.string)])
      [[( "title", Value.str ( "ok".toList))], [( "title", Value.num 3)]]
      [( "title", Value.num 3)] (by simp) (by decide),
    (c6_reject_atomicity.2.2 [( "title", FieldType.string)]
      [Op.add [( "title", Value.str ( "ok".toList))]] [( "title", Value.num 3)] (by decide)).1⟩

/-! ### Scorer lemmas (claims C8 and C9) -/

theorem phraseLoop_eq_spec (c q : Str) (w : ℚ) :
    ∀ fuel i, phraseLoop c q w fuel i = phraseSpecLoop c q w fuel i := by
  intro fuel
  induction fuel with
  | zero => intro i; rfl
  | succ f ih =>
    intro i
    by_cases hcond : i + q.length ≤ c.length
    · by_cases hd : levenshteinDistance q ((c.drop i).take q.length) < 3
      · simp [phraseLoop, phraseSpecLoop, hcond, hd, ih]
      · simp [phraseLoop, phraseSpecLoop, hcond, hd, ih]
    · simp [phraseLoop, phraseSpecLoop, hcond]

theorem phraseLoop_linear (c q : Str) (w : ℚ) :
    ∀ fuel i, phraseLoop c q w fuel i = w * phraseLoop c q 1 fuel i := by
  intro fuel
  induction fuel with
  | zero => intro i; simp [phraseLoop]
  | succ f ih =>
    intro i
    by_cases hcond : i + q.length ≤ c.length
    · by_cases hd : levenshteinDistance q ((c.drop i).take q.length) < 3
      · simp only [phraseLoop, if_pos hcond, if_pos hd]
        rw [ih]
        ring
      · simp only [phraseLoop, if_pos hcond, if_neg hd]
        exact ih _
    · simp [phraseLoop, hcond]

theorem phraseLoop_nonneg (c q : Str) {w : ℚ} (hw : 0 ≤ w) :
    ∀ fuel i, 0 ≤ phraseLoop c q w fuel i := by
  intro fuel
  induction fuel with
  | zero => intro i; simp [phraseLoop]
  | succ f ih =>
    intro i
    by_cases hcond : i + q.length ≤ c.length
    · by_cases hd : levenshteinDistance q ((c.drop i).take q.length) < 3
      · simp only [phraseLoop, if_pos hcond, if_pos hd]
        have hterm : 0 ≤ w * 5 / ((levenshteinDistance q ((c.drop i).take q.length) : ℚ) + 1) := by
          apply div_nonneg (by linarith) (by positivity)
        have := ih (i + q.length)
        linarith
      · simp only [phraseLoop, if_pos hcond, if_neg hd]
        exact ih _
    · simp [phraseLoop, hcond]

theorem calculatePhraseScore_linear (c : Str) (q : List Str) (w : ℚ) :
    calculatePhraseScore c q w = w * calculatePhraseScore c q 1 := by
  unfold calculatePhraseScore
  exact phraseLoop_linear _ _ w _ 0

theorem calculatePhraseScore_nonneg (c : Str) (q : List Str) {w : ℚ} (hw : 0 ≤ w) :
    0 ≤ calculatePhraseScore c q w := by
  unfold calculatePhraseScore
  exact phraseLoop_nonneg _ _ hw _ 0

theorem sum_map_linear {α : Type _} (l : List α) (f g : α → ℚ) (w : ℚ)
    (h : ∀ x ∈ l, f x = w * g x) : (l.map f).sum = w * (l.map g).sum := by
  induction l with
  | nil => simp
  | cons a l ih =>
    simp only [List.map_cons, List.sum_cons]
    rw [h a (by simp), ih (fun x hx => h x (by simp [hx]))]
    ring

theorem sum_map_nonneg {α : Type _} (l : List α) (f : α → ℚ)
    (h : ∀ x ∈ l, 0 ≤ f x) : 0 ≤ (l.map f).sum := by
  induction l with
  | nil => simp
  | cons a l ih =>
    simp only [List.map_cons, List.sum_cons]
    have := h a (by simp)
    have := ih (fun x hx => h x (by simp [hx]))
    linarith

theorem calculateWordScore_linear (c : Str) (q : List Str) (w : ℚ) :
    calculateWordScore c q w = w * calculateWordScore c q 1 := by
  unfold calculateWordScore
  apply sum_map_linear
  intro qw _
  apply sum_map_linear
  intro fw _
  by_cases hd : levenshteinDistance qw fw < 3
  · simp only [if_pos hd]
    ring
  · simp [hd]

theorem calculateWordScore_nonneg (c : Str) (q : List Str) {w : ℚ} (hw : 0 ≤ w) :
    0 ≤ calculateWordScore c q w := by
  unfold calculateWordScore
  apply sum_map_nonneg
  intro qw _
  apply sum_map_nonneg
  intro fw _
  by_cases hd : levenshteinDistance qw fw < 3
  · simp only [if_pos hd]
    apply div_nonneg hw (by positivity)
  · simp [hd]

theorem calculateNumberScore_linear (n : ℚ) (q : List Str) (w : ℚ) :
    calculateNumberScore n q w = w * calculateNumberScore n q 1 := by
  unfold calculateNumberScore
  apply sum_map_linear
  intro qw _
  split <;> ring

theorem calculateNumberScore_nonneg (n : ℚ) (q : List Str) {w : ℚ} (hw : 0 ≤ w) :
    0 ≤ calculateNumberScore n q w := by
  unfold calculateNumberScore
  apply sum_map_nonneg
  intro qw _
  split
  · exact hw
  · exact le_refl 0

theorem calculateBooleanScore_linear (b : Bool) (q : List Str) (w : ℚ) :
    calculateBooleanScore b q w = w * calculateBooleanScore b q 1 := by
  unfold calculateBooleanScore
  apply sum_map_linear
  intro qw _
  split <;> ring

theorem calculateBooleanScore_nonneg (b : Bool) (q : List Str) {w : ℚ} (hw : 0 ≤ w) :
    0 ≤ calculateBooleanScore b q w := by
  unfold calculateBooleanScore
  apply sum_map_nonneg
  intro qw _
  split
  · exact hw
  · exact le_refl 0

theorem stringFieldScore_mono (c : Str) (q : List Str) {w w' : ℚ}
    (h : w ≤ w') :
    stringFieldScore c q w ≤ stringFieldScore c q w' := by
  unfold stringFieldScore
  have hphrase : (if 1 < q.length then calculatePhraseScore c q w else 0) ≤
      (if 1 < q.length then calculatePhraseScore c q w' else 0) := by
    by_cases hq : 1 < q.length
    · simp only [if_pos hq]
      rw [calculatePhraseScore_linear c q w, calculatePhraseScore_linear c q w']
      exact mul_le_mul_of_nonneg_right h (calculatePhraseScore_nonneg c q (by norm_num))
    · simp [hq]
  have hword : calculateWordScore c q w ≤ calculateWordScore c q w' := by
    rw [calculateWordScore_linear c q w, calculateWordScore_linear c q w']
    exact mul_le_mul_of_nonneg_right h (calculateWordScore_nonneg c q (by norm_num))
  linarith

/-- C8: the embedded `#calculatePhraseScore` coincides with the phrase rule
as worded in the spec (window of the length of the normalized space-joined
query; award `w * 5 / (d + 1)` and skip ahead when `d < 3`, else advance by
one character), and a query of at most one word contributes no phrase
score: the string-field contribution degenerates to the word score. -/
theorem c8_phrase_scoring :
    (∀ (text : Str) (queryWords : List Str) (w : ℚ),
      calculatePhraseScore text queryWords w = phraseScoreSpec text queryWords w) ∧
    (∀ (content : Str) (queryWords : List Str) (w : ℚ), queryWords.length ≤ 1 →
      stringFieldScore content queryWords w = calculateWordScore content queryWords w) := by
  constructor
  · intro text queryWords w
    unfold calculatePhraseScore phraseScoreSpec
    exact phraseLoop_eq_spec _ _ w _ 0
  · intro content queryWords w hlen
    unfold stringFieldScore
    rw [if_neg (by omega)]
    ring

/-- Witness for C8 on the §8 book text and a one-word query. -/
theorem c8_phrase_scoring_witness :
    calculatePhraseScore ( "the great gatsby".toList)
        [ "great".toList, "gatsbi".toList] 2 =
      phraseScoreSpec ( "the great gatsby".toList) [ "great".toList, "gatsbi".toList] 2 ∧
    stringFieldScore ( "great".toList) [ "great".toList] 1 =
      calculateWordScore ( "great".toList) [ "great".toList] 1 :=
  ⟨c8_phrase_scoring.1 ( "the great gatsby".toList) [ "great".toList, "gatsbi".toList] 2,
    c8_phrase_scoring.2 ( "great".toList) [ "great".toList] 1 (by decide)⟩

/-- C9: for a fixed document and query, raising one field weight within
[1,5] (all other fields unchanged) never decreases the total
`#calculateScore`. -/
theorem c9_score_monotone (doc : Doc) (queryWords : List Str) (schema : Schema)
    (pre post : List Field) (fname : String) (w w' : ℚ)
    (h1 : 1 ≤ w) (h2 : w ≤ w') (_h3 : w' ≤ 5) :
    calculateScore doc queryWords (pre ++ { name := fname, weight := w } :: post) schema ≤
      calculateScore doc queryWords (pre ++ { name := fname, weight := w' } :: post) schema := by
  unfold calculateScore
  rw [List.map_append, List.sum_append, List.map_append, List.sum_append,
    List.map_cons, List.sum_cons, List.map_cons, List.sum_cons]
  have hw0 : ¬(w = 0) := by intro h; rw [h] at h1; linarith
  have hw'0 : ¬(w' = 0) := by intro h; rw [h] at h2; linarith
  have hcontrib :
      (match doc.lookup fname with
        | none => (0 : ℚ)
        | some v =>
          match schema.lookup fname, v with
          | some FieldType.string, Value.str content =>
            stringFieldScore (sanitizeText content) queryWords (if w = 0 then 1 else w)
          | some FieldType.number, Value.num n =>
            calculateNumberScore n queryWords (if w = 0 then 1 else w)
          | some FieldType.boolean, Value.bool b =>
            calculateBooleanScore b queryWords (if w = 0 then 1 else w)
          | _, _ => 0) ≤
      (match doc.lookup fname with
        | none => (0 : ℚ)
        | some v =>
          match schema.lookup fname, v with
          | some FieldType.string, Value.str content =>
            stringFieldScore (sanitizeText content) queryWords (if w' = 0 then 1 else w')
          | some FieldType.number, Value.num n =>
            calculateNumberScore n queryWords (if w' = 0 then 1 else w')
          | some FieldType.boolean, Value.bool b =>
            calculateBooleanScore b queryWords (if w' = 0 then 1 else w')
          | _, _ => 0) := by
    rw [if_neg hw0, if_neg hw'0]
    cases hlook : doc.lookup fname with
    | none => exact le_refl 0
    | some v =>
      cases hsch : schema.lookup fname with
      | none => cases v <;> exact le_refl 0
      | some ty =>
        cases ty with
        | string =>
          cases v with
          | str content =>
            have hmono := @stringFieldScore_mono (sanitizeText content) queryWords w w' h2
            exact hmono
          | num n => exact le_refl 0
          | bool bb => exact le_refl 0
        | number =>
          cases v with
          | str content => exact le_refl 0
          | num n =>
            have hmono : calculateNumberScore n queryWords w ≤ calculateNumberScore n queryWords w' := by
              rw [calculateNumberScore_linear n queryWords w, calculateNumberScore_linear n queryWords w']
              exact mul_le_mul_of_nonneg_right h2 (calculateNumberScore_nonneg n queryWords (by norm_num))
            exact hmono
          | bool bb => exact le_refl 0
        | boolean =>
          cases v with
          | str content => exact le_refl 0
          | num n => exact le_refl 0
          | bool bb =>
            have hmono : calculateBooleanScore bb queryWords w ≤ calculateBooleanScore bb queryWords w' := by
              rw [calculateBooleanScore_linear bb queryWords w, calculateBooleanScore_linear bb queryWords w']
              exact mul_le_mul_of_nonneg_right h2 (calculateBooleanScore_nonneg bb queryWords (by norm_num))
            exact hmono
  simp only at hcontrib ⊢
  linarith

/-- Witness for C9: raising the title weight from 1 to 5 on the §8 book. -/
theorem c9_score_monotone_witness :
    calculateScore gatsbyDoc [ "great".toList] ([] ++ { name := "title", weight := (1 : ℚ) } :: [])
        bookSchema ≤
      calculateScore gatsbyDoc [ "great".toList] ([] ++ { name := "title", weight := (5 : ℚ) } :: [])
        bookSchema :=
  c9_score_monotone gatsbyDoc [ "great".toList] bookSchema [] [] "title" 1 5
    (by norm_num) (by norm_num) (by norm_num)

/-! ### Parameter handling lemmas (claims C7 and C10) -/

theorem setWeight_name (f : Field) (w : ℚ) : (f.setWeight w).name = f.name := rfl

theorem find?_updateFirstWeight (fname : String) (w : ℚ) :
    ∀ fs : List Field,
      (updateFirstWeight fs fname w).find? (fun f => f.name == fname) =
        (fs.find? (fun f => f.name == fname)).map (fun f => f.setWeight w) := by
  intro fs
  induction fs with
  | nil => simp [updateFirstWeight]
  | cons f rest ih =>
    by_cases hname : f.name == fname
    · simp [updateFirstWeight, hname, List.find?, setWeight_name]
    · simp only [updateFirstWeight, if_neg hname]
      rw [List.find?_cons_of_neg _ (by simpa using hname),
        List.find?_cons_of_neg _ (by simpa using hname)]
      exact ih

theorem clampRaw_collapse (w : ℚ) :
    max 1 (min 5 (if w > 5 then (5 : ℚ) else if w < 1 then 1 else w)) = max 1 (min 5 w) := by
  simp only [max_def, min_def]
  split_ifs <;> first | rfl | linarith

theorem setParameters_single_fields (s : Engine) (fname : String) (w : ℚ) :
    (setParameters s { fields := some [(fname, { weight := some w })] }).fields =
      updateFirstWeight s.fields fname (if w > 5 then 5 else if w < 1 then 1 else w) := by
  simp only [setParameters, applyFieldEntry, List.foldl_cons, List.foldl_nil]
  split_ifs <;> rfl

theorem handleParameters_single (s : Engine) (fname : String) (w : ℚ)
    (h : (s.schema.lookup fname).isSome = true) :
    handleParameters s (some { fields := some [(fname, { weight := some w })] }) =
      .ok (setParameters s { fields := some [(fname, { weight := some w })] }) := by
  simp [handleParameters, h]

theorem handleParameters_empty (s : Engine) :
    handleParameters s (some {}) = .ok s := by
  simp [handleParameters, setParameters]

theorem search_basic_ok (s sA : Engine) (q : String) (p : Params)
    (hw : p.whereC = none) (hsc : p.score = none)
    (hhp : handleParameters s (some p) = .ok sA) :
    ∃ r s', search s q (some p) = .ok (r, s') ∧ s'.fields = sA.fields := by
  unfold search
  rw [hhp]
  cases hc : sA.cache.lookup (createCacheKey q (some p)) with
  | some cached =>
    refine ⟨{ count := cached.length, hits := cached }, sA, ?_, rfl⟩
    simp [hc, paramsScore, hsc, filterHitsByScore]
  | none =>
    simp only [hc, paramsScore, hsc, filterHitsByScore, pipeline, hw, Option.bind]
    exact ⟨_, _, rfl, rfl⟩

/-- C7: a search that assigns any numeric weight `w` to a schema field
always succeeds; afterwards the field object holds the clamped weight
`max 1 (min 5 w)`, which lies in [1,5], is 5 for weights above 5 and 1 for
weights below 1. -/
theorem c7_weight_clamped (s : Engine) (q : String) (fname : String) (w : ℚ)
    (hschema : (s.schema.lookup fname).isSome = true) :
    ∃ r s', search s q (some { fields := some [(fname, { weight := some w })] }) = .ok (r, s') ∧
      s'.fields.find? (fun f => f.name == fname) =
        (s.fields.find? (fun f => f.name == fname)).map
          (fun f => { f with weight := max 1 (min 5 w) }) ∧
      ∀ f', s'.fields.find? (fun f => f.name == fname) = some f' →
        1 ≤ f'.weight ∧ f'.weight ≤ 5 ∧ (5 < w → f'.weight = 5) ∧ (w < 1 → f'.weight = 1) := by
  have hhp := handleParameters_single s fname w hschema
  obtain ⟨r, s', hok, hfields⟩ := search_basic_ok s _ q _ rfl rfl hhp
  have hfind : s'.fields.find? (fun f => f.name == fname) =
      (s.fields.find? (fun f => f.name == fname)).map
        (fun f => { f with weight := max 1 (min 5 w) }) := by
    rw [hfields, setParameters_single_fields, find?_updateFirstWeight]
    cases hf : s.fields.find? (fun f => f.name == fname) with
    | none => rfl
    | some f =>
      simp only [Option.map_some']
      unfold Field.setWeight
      rw [clampRaw_collapse]
  refine ⟨r, s', hok, hfind, ?_⟩
  intro f' hf'
  rw [hfind] at hf'
  cases hf : s.fields.find? (fun f => f.name == fname) with
  | none => rw [hf] at hf'; simp at hf'
  | some f =>
    rw [hf] at hf'
    simp only [Option.map_some'] at hf'
    injection hf' with hf'
    have hw' : f'.weight = max 1 (min 5 w) := by rw [← hf']
    rw [hw']
    refine ⟨le_max_left 1 _, max_le (by norm_num) (min_le_left 5 w), ?_, ?_⟩
    · intro h5
      rw [min_eq_left (le_of_lt h5)]
      norm_num
    · intro hlt
      rw [min_eq_right (by linarith : w ≤ 5)]
      exact max_eq_left (le_of_lt hlt)

/-- Witness for C7: an out-of-range weight 7 on the one-field engine. -/
theorem c7_weight_clamped_witness :
    ∃ r s', search titleEngine "great"
        (some { fields := some [( "title", { weight := some 7 })] }) = .ok (r, s') ∧
      s'.fields.find? (fun f => f.name == "title") =
        (titleEngine.fields.find? (fun f => f.name == "title")).map
          (fun f => { f with weight := max 1 (min 5 7) }) ∧
      ∀ f', s'.fields.find? (fun f => f.name == "title") = some f' →
        1 ≤ f'.weight ∧ f'.weight ≤ 5 ∧ ((5 : ℚ) < 7 → f'.weight = 5) ∧ ((7 : ℚ) < 1 → f'.weight = 1) :=
  c7_weight_clamped titleEngine "great" "title" 7 (by decide)

set_option maxRecDepth 400000 in
/-- C10: setting a field weight through `search` parameters mutates the
engine field in place — the clamped weight is still there after the call
returns, a later search that does not set weights leaves it untouched, and
concretely such a later search on the one-field engine scores with the
persisted weight 5 while a fresh engine (default weight 1) scores 1. -/
theorem c10_weight_persists :
    (∀ (s : Engine) (q q' : String) (fname : String) (w : ℚ),
      (s.schema.lookup fname).isSome = true → 1 ≤ w → w ≤ 5 →
      ∃ r1 s1, search s q (some { fields := some [(fname, { weight := some w })] }) = .ok (r1, s1) ∧
        s1.fields.find? (fun f => f.name == fname) =
          (s.fields.find? (fun f => f.name == fname)).map (fun f => { f with weight := w }) ∧
        ∃ r2 s2, search s1 q' (some {}) = .ok (r2, s2) ∧ s2.fields = s1.fields) ∧
    ((search titleEngine "great"
        (some { fields := some [( "title", { weight := some 5 })] })).toOption.bind
        (fun pr => (search pr.2 "great" (some {})).toOption)).map
        (fun pr => pr.1.hits.map Hit.score) = some [5] ∧
    (search titleEngine "great" (some {})).toOption.map
        (fun pr => pr.1.hits.map Hit.score) = some [1] := by
  refine ⟨?_, by with_unfolding_all decide, by with_unfolding_all decide⟩
  intro s q q' fname w hschema h1 h5
  have hhp := handleParameters_single s fname w hschema
  obtain ⟨r1, s1, hok1, hfields1⟩ := search_basic_ok s _ q _ rfl rfl hhp
  have hfind : s1.fields.find? (fun f => f.name == fname) =
      (s.fields.find? (fun f => f.name == fname)).map (fun f => { f with weight := w }) := by
    rw [hfields1, setParameters_single_fields, find?_updateFirstWeight]
    cases hf : s.fields.find? (fun f => f.name == fname) with
    | none => rfl
    | some f =>
      have hcollapse : max 1 (min 5 (if w > 5 then (5 : ℚ) else if w < 1 then 1 else w)) = w := by
        rw [clampRaw_collapse, min_eq_right h5, max_eq_right h1]
      simp [Field.setWeight, hcollapse]
  obtain ⟨r2, s2, hok2, hfields2⟩ :=
    search_basic_ok s1 s1 q' {} rfl rfl (handleParameters_empty s1)
  exact ⟨r1, s1, hok1, hfind, r2, s2, hok2, hfields2⟩

/-- Witness for C10 at a concrete engine, weight and query pair. -/
theorem c10_weight_persists_witness :
    ∃ r1 s1, search titleEngine "great"
        (some { fields := some [( "title", { weight := some 2 })] }) = .ok (r1, s1) ∧
      s1.fields.find? (fun f => f.name == "title") =
        (titleEngine.fields.find? (fun f => f.name == "title")).map
          (fun f => { f with weight := (2 : ℚ) }) ∧
      ∃ r2 s2, search s1 "gatsby" (some {}) = .ok (r2, s2) ∧ s2.fields = s1.fields :=
  c10_weight_persists.1 titleEngine "great" "gatsby" "title" 2 (by decide)
    (by norm_num) (by norm_num)

/-- C2: refuted — calling `search` with the parameters argument omitted
never succeeds.  Both the cache-hit and the cache-miss path evaluate
`parameters.score` (src/unnamed/part_000 75 and 120), a TypeError on an
undefined `parameters`, which the surrounding catch rethrows, so every
query throws instead of returning a result object. -/
theorem c2_search_without_parameters_errors (s : Engine) (q : String) :
    search s q none = Except.error errScoreUndefined := by
  unfold search
  cases hc : s.cache.lookup (createCacheKey q none) with
  | some cached => simp [hc, handleParameters, paramsScore]
  | none => simp [hc, handleParameters, paramsScore, pipeline]

/-- C2 witness: the empty-schema engine throws on a concrete query. -/
theorem c2_search_without_parameters_errors_witness :
    search (initEngine []) "great" none = Except.error errScoreUndefined :=
  c2_search_without_parameters_errors (initEngine []) "great"

/-- A single numeric-field condition object with no `eq` key passes the
first pass of `#applyWhereClause` unchanged, so the clause reduces to the
range filter of the second pass. -/
theorem applyWhere_single_num_obj (schema : Schema) (k : String) (docs : List Doc)
    (o : CondObj) (hk : schema.lookup k = some FieldType.number) (heq : o.eq = none) :
    applyWhereClause schema docs [(k, Cond.obj o)] =
      .ok (docs.filter (rangePass [(k, Cond.obj o)])) := by
  simp [applyWhereClause, wherePhase1, hk, heq, Except.map]

/-- C5 counterexample: the claimed range semantics fails at the threshold
`0` — a `gte: 0` condition is falsy in the source's `&&` chain
(src/unnamed/part_000 290), so the whole condition is skipped and a
document with value `-1` is kept even though `-1 >= 0` is false. -/
theorem c5_threshold_zero_counterexample :
    applyWhereClause [( "n", FieldType.number)] [[( "n", Value.num (-1))]]
        [( "n", Cond.obj { gte := some 0 })] =
      .ok [[( "n", Value.num (-1))]] ∧
    ¬((0 : ℚ) ≤ -1) := by
  constructor
  · rw [applyWhere_single_num_obj [( "n", FieldType.number)] "n"
      [[( "n", Value.num (-1))]] { gte := some 0 } rfl rfl]
    exact congrArg Except.ok (by with_unfolding_all decide)
  · norm_num

set_option maxRecDepth 400000 in
/-- C5 (amended): over documents whose field value is numeric, a single
`lt`/`lte`/`gt`/`gte` condition with a NONZERO threshold keeps exactly the
documents whose value satisfies the ordering comparison (a zero threshold
is falsy in the source's `&&` chain and is ignored — see the
counterexample); a two-element `bt: [min, max]` keeps exactly the documents
whose value lies in `[min, max]` inclusive, for any bounds; and in the
spec §8 two-book scenario `where: (year, gte 1900)` returns only The Great
Gatsby. -/
theorem c5_range_semantics (schema : Schema) (k : String) (docs : List Doc)
    (t mn mx : ℚ) (hk : schema.lookup k = some FieldType.number) (ht : t ≠ 0)
    (hdocs : ∀ d ∈ docs, ∃ q0 : ℚ, d.lookup k = some (Value.num q0)) :
    (applyWhereClause schema docs [(k, Cond.obj { lt := some t })] =
      .ok (docs.filter (fun d =>
        match d.lookup k with
        | some (Value.num q0) => decide (q0 < t)
        | _ => false))) ∧
    (applyWhereClause schema docs [(k, Cond.obj { lte := some t })] =
      .ok (docs.filter (fun d =>
        match d.lookup k with
        | some (Value.num q0) => decide (q0 ≤ t)
        | _ => false))) ∧
    (applyWhereClause schema docs [(k, Cond.obj { gt := some t })] =
      .ok (docs.filter (fun d =>
        match d.lookup k with
        | some (Value.num q0) => decide (t < q0)
        | _ => false))) ∧
    (applyWhereClause schema docs [(k, Cond.obj { gte := some t })] =
      .ok (docs.filter (fun d =>
        match d.lookup k with
        | some (Value.num q0) => decide (t ≤ q0)
        | _ => false))) ∧
    (applyWhereClause schema docs [(k, Cond.obj { bt := some [mn, mx] })] =
      .ok (docs.filter (fun d =>
        match d.lookup k with
        | some (Value.num q0) => decide (mn ≤ q0 ∧ q0 ≤ mx)
        | _ => false))) ∧
    ((search twoBooksEngine "great"
        (some { whereC := some [( "year", Cond.obj { gte := some 1900 })] })).toOption.map
          (fun pr => pr.1.hits.map Hit.document) = some [gatsbyDoc]) := by
  refine ⟨?_, ?_, ?_, ?_, ?_, ?_⟩
  · rw [applyWhere_single_num_obj schema k docs { lt := some t } hk rfl]
    refine congrArg Except.ok (List.filter_congr ?_)
    intro d hd
    obtain ⟨q0, hq0⟩ := hdocs d hd
    simp [rangePass, rangeChain, condTruthyNum, ht, hq0, jsNumLt, jsNumLe, jsNumGt,
      jsNumGe, not_le]
    rw [← decide_not]
    exact decide_eq_decide.mpr not_lt.symm
  · rw [applyWhere_single_num_obj schema k docs { lte := some t } hk rfl]
    refine congrArg Except.ok (List.filter_congr ?_)
    intro d hd
    obtain ⟨q0, hq0⟩ := hdocs d hd
    simp [rangePass, rangeChain, condTruthyNum, ht, hq0, jsNumLt, jsNumLe, jsNumGt,
      jsNumGe, not_lt]
    rw [← decide_not]
    exact decide_eq_decide.mpr not_le.symm
  · rw [applyWhere_single_num_obj schema k docs { gt := some t } hk rfl]
    refine congrArg Except.ok (List.filter_congr ?_)
    intro d hd
    obtain ⟨q0, hq0⟩ := hdocs d hd
    simp [rangePass, rangeChain, condTruthyNum, ht, hq0, jsNumLt, jsNumLe, jsNumGt,
      jsNumGe, not_le]
    rw [← decide_not]
    exact decide_eq_decide.mpr not_lt.symm
  · rw [applyWhere_single_num_obj schema k docs { gte := some t } hk rfl]
    refine congrArg Except.ok (List.filter_congr ?_)
    intro d hd
    obtain ⟨q0, hq0⟩ := hdocs d hd
    simp [rangePass, rangeChain, condTruthyNum, ht, hq0, jsNumLt, jsNumLe, jsNumGt,
      jsNumGe, not_lt]
    rw [← decide_not]
    exact decide_eq_decide.mpr not_le.symm
  · rw [applyWhere_single_num_obj schema k docs { bt := some [mn, mx] } hk rfl]
    refine congrArg Except.ok (List.filter_congr ?_)
    intro d hd
    obtain ⟨q0, hq0⟩ := hdocs d hd
    simp [rangePass, hq0, jsNumLt, jsNumGt, not_lt]
    have h1 : (decide ¬(q0 < mn) : Bool) = decide (mn ≤ q0) :=
      decide_eq_decide.mpr not_lt
    have h2 : (decide ¬(mx < q0) : Bool) = decide (q0 ≤ mx) :=
      decide_eq_decide.mpr not_lt
    rw [← decide_not, ← decide_not, h1, h2]
  · with_unfolding_all decide

/-- C5 witness: the amended range semantics evaluated on the two-book
scenario data with threshold 1900 on the `year` field. -/
theorem c5_range_semantics_witness :
    applyWhereClause bookSchema [gatsbyDoc, expectationsDoc]
        [( "year", Cond.obj { gte := some 1900 })] =
      .ok ([gatsbyDoc, expectationsDoc].filter (fun d =>
        match d.lookup "year" with
        | some (Value.num q0) => decide ((1900 : ℚ) ≤ q0)
        | _ => false)) := by
  refine (c5_range_semantics bookSchema "year" [gatsbyDoc, expectationsDoc]
    1900 0 0 rfl (by norm_num) ?_).2.2.2.1
  intro d hd
  simp only [List.mem_cons, List.not_mem_nil, or_false] at hd
  rcases hd with h | h <;> rw [h]
  · exact ⟨1925, rfl⟩
  · exact ⟨1861, rfl⟩


set_option maxRecDepth 400000 in
/-- C1 counterexample: the cache key stringifies the whole parameters
object, `score` clause included (src/unnamed/part_000 328-330), so a second
call that differs only in `score` cannot hit the cache entry of the first
call: the two keys differ, and after a first search with `score.gt = 1/2`
the cache of the returned engine holds the first key but not the key of
`score.gt = 1/4`. -/
theorem c1_cache_key_counterexample :
    (createCacheKey "great" (some { score := some { gt := some (1/2) } }) ≠
      createCacheKey "great" (some { score := some { gt := some (1/4) } })) ∧
    ((search twoBooksEngine "great"
        (some { score := some { gt := some (1/2) } })).toOption.map
        (fun pr =>
          ((pr.2.cache.lookup (createCacheKey "great"
              (some { score := some { gt := some (1/2) } }))).isSome,
            (pr.2.cache.lookup (createCacheKey "great"
              (some { score := some { gt := some (1/4) } }))).isSome)) =
      some (true, false)) := by
  with_unfolding_all decide

theorem setWeight_setWeight (f : Field) (w w' : ℚ) :
    (f.setWeight w').setWeight w = f.setWeight w := rfl

theorem updateFirstWeight_updateFirstWeight (fs : List Field) (fname : String)
    (w w' : ℚ) :
    updateFirstWeight (updateFirstWeight fs fname w') fname w =
      updateFirstWeight fs fname w := by
  induction fs with
  | nil => rfl
  | cons f rest ih =>
    by_cases h : (f.name == fname) = true
    · simp [updateFirstWeight, setWeight_name, h, setWeight_setWeight]
    · simp [updateFirstWeight, h, ih]

theorem updateFirstWeight_comm (fs : List Field) (f g : String) (wf wg : ℚ)
    (h : f ≠ g) :
    updateFirstWeight (updateFirstWeight fs f wf) g wg =
      updateFirstWeight (updateFirstWeight fs g wg) f wf := by
  induction fs with
  | nil => rfl
  | cons fd rest ih =>
    by_cases h1 : (fd.name == f) = true
    · have h1' : fd.name = f := by simpa using h1
      have h2 : (fd.name == g) = false := by simp [h1', h]
      simp [updateFirstWeight, setWeight_name, h1, h2]
    · by_cases h2 : (fd.name == g) = true
      · simp [updateFirstWeight, setWeight_name, h1, h2]
      · simp [updateFirstWeight, h1, h2, ih]

theorem applyFieldEntry_applyFieldEntry (fs : List Field) (e : String × FieldParams) :
    applyFieldEntry (applyFieldEntry fs e) e = applyFieldEntry fs e := by
  obtain ⟨k, fp⟩ := e
  cases hw : fp.weight with
  | none => simp [applyFieldEntry, hw]
  | some w =>
    simp only [applyFieldEntry, hw]
    split_ifs <;> rw [updateFirstWeight_updateFirstWeight]

theorem applyFieldEntry_comm (fs : List Field) (e e' : String × FieldParams)
    (h : e.1 ≠ e'.1) :
    applyFieldEntry (applyFieldEntry fs e) e' = applyFieldEntry (applyFieldEntry fs e') e := by
  obtain ⟨k, fp⟩ := e
  obtain ⟨k', fp'⟩ := e'
  simp only at h
  cases hw : fp.weight with
  | none => simp [applyFieldEntry, hw]
  | some w =>
    cases hw' : fp'.weight with
    | none => simp [applyFieldEntry, hw']
    | some w' =>
      simp only [applyFieldEntry, hw, hw']
      split_ifs <;> exact updateFirstWeight_comm fs k k' _ _ h

theorem applyFieldEntry_foldl_comm (e : String × FieldParams) :
    ∀ (rest : List (String × FieldParams)) (fs : List Field),
      e.1 ∉ rest.map Prod.fst →
      applyFieldEntry (rest.foldl applyFieldEntry fs) e =
        rest.foldl applyFieldEntry (applyFieldEntry fs e) := by
  intro rest
  induction rest with
  | nil => intro fs _; rfl
  | cons r rest' ih =>
    intro fs h
    simp only [List.map_cons, List.mem_cons] at h
    push_neg at h
    obtain ⟨hne, h'⟩ := h
    simp only [List.foldl_cons]
    rw [ih (applyFieldEntry fs r) h', applyFieldEntry_comm fs r e (Ne.symm hne)]

theorem foldl_applyFieldEntry_idem :
    ∀ (pf : List (String × FieldParams)) (fs : List Field),
      (pf.map Prod.fst).Nodup →
      pf.foldl applyFieldEntry (pf.foldl applyFieldEntry fs) =
        pf.foldl applyFieldEntry fs := by
  intro pf
  induction pf with
  | nil => intro fs _; rfl
  | cons e rest ih =>
    intro fs h
    simp only [List.map_cons, List.nodup_cons] at h
    obtain ⟨hnotin, hnd⟩ := h
    simp only [List.foldl_cons]
    rw [applyFieldEntry_foldl_comm e rest _ hnotin,
      applyFieldEntry_applyFieldEntry, ih _ hnd]

theorem setParameters_proj (s : Engine) (p : Params) :
    (setParameters s p).schema = s.schema ∧ (setParameters s p).index = s.index ∧
      (setParameters s p).cache = s.cache ∧ (setParameters s p).docs = s.docs := by
  cases hp : p.fields <;> simp [setParameters, hp]

theorem handleParameters_ok_check (s : Engine) (p : Params) (s' : Engine)
    (h : handleParameters s (some p) = .ok s') (fl : List (String × FieldParams))
    (hfl : p.fields = some fl) :
    fl.all (fun e => (s.schema.lookup e.1).isSome) = true := by
  simp only [handleParameters, hfl] at h
  by_cases hall : fl.all (fun e => (s.schema.lookup e.1).isSome) = true
  · exact hall
  · rw [if_neg hall] at h
    exact absurd h (by simp)

theorem handleParameters_ok_of_check (s : Engine) (p : Params)
    (h : ∀ fl, p.fields = some fl →
      fl.all (fun e => (s.schema.lookup e.1).isSome) = true) :
    handleParameters s (some p) = .ok (setParameters s p) := by
  cases hp : p.fields with
  | none => simp [handleParameters, hp]
  | some fl => simp [handleParameters, hp, h fl hp]

theorem lookup_map_update (c : List (String × List Hit)) (k : String) (v : List Hit)
    (h : (c.lookup k).isSome = true) :
    (c.map (fun p => if p.1 == k then (p.1, v) else p)).lookup k = some v := by
  induction c with
  | nil => simp [List.lookup] at h
  | cons p rest ih =>
    rw [List.map_cons]
    by_cases hp : p.1 = k
    · have hbeq : (p.1 == k) = true := by simpa using hp
      rw [if_pos hbeq]
      have hkeq : (k == p.1) = true := by simpa using hp.symm
      simp [List.lookup, hkeq]
    · have hbeq : (p.1 == k) = false := by simpa using hp
      rw [if_neg (by simp [hbeq])]
      have hkeq : (k == p.1) = false := by simpa using (Ne.symm hp)
      simp only [List.lookup, hkeq] at h
      simpa [List.lookup, hkeq] using ih h

theorem lookup_append_single (c : List (String × List Hit)) (k : String) (v : List Hit)
    (h : c.lookup k = none) :
    (c ++ [(k, v)]).lookup k = some v := by
  induction c with
  | nil => simp [List.lookup]
  | cons p rest ih =>
    by_cases hp : p.1 = k
    · have hkeq : (k == p.1) = true := by simpa using hp.symm
      simp [List.lookup, hkeq] at h
    · have hkeq : (k == p.1) = false := by simpa using (Ne.symm hp)
      simp only [List.lookup, hkeq] at h
      rw [List.cons_append]
      simpa [List.lookup, hkeq] using ih h

theorem lookup_cacheSet_self (c : List (String × List Hit)) (k : String) (v : List Hit) :
    (cacheSet c k v).lookup k = some v := by
  unfold cacheSet
  by_cases h : (c.lookup k).isSome = true
  · rw [if_pos h]
    exact lookup_map_update c k v h
  · rw [if_neg h]
    exact lookup_append_single c k v (Option.not_isSome_iff_eq_none.mp (by simpa using h))

theorem lookup_cacheSet_ne (c : List (String × List Hit)) (k k' : String) (v : List Hit)
    (h : k' ≠ k) : (cacheSet c k v).lookup k' = c.lookup k' := by
  unfold cacheSet
  split_ifs with hs
  · clear hs
    induction c with
    | nil => rfl
    | cons p rest ih =>
      rw [List.map_cons]
      by_cases hp : p.1 = k
      · have hbeq : (p.1 == k) = true := by simpa using hp
        rw [if_pos hbeq]
        have hk2 : k' ≠ p.1 := by rw [hp]; exact h
        have hk'eq : (k' == p.1) = false := by simpa using hk2
        simp only [List.lookup, hk'eq]
        simpa using ih
      · have hbeq : (p.1 == k) = false := by simpa using hp
        rw [if_neg (by simp [hbeq])]
        cases hpk : (k' == p.1) with
        | true => simp [List.lookup, hpk]
        | false =>
          simp only [List.lookup, hpk]
          simpa using ih
  · clear hs
    have hne2 : (k' == k) = false := by simpa using h
    induction c with
    | nil => simp [List.lookup, hne2]
    | cons p rest ih =>
      rw [List.cons_append]
      cases hpk : (k' == p.1) with
      | true => simp [List.lookup, hpk]
      | false => simp [List.lookup, hpk, ih]

theorem filterHitsByScore_ok (hits : List Hit) (sc : Option ScoreCond)
    (h : validScoreOpt sc = true) : ∃ l, filterHitsByScore hits sc = .ok l := by
  cases sc with
  | none => exact ⟨hits, rfl⟩
  | some sc =>
    simp only [validScoreOpt] at h
    refine ⟨hits.filter (fun hit =>
        !(match sc.gt with | some g => decide (hit.score ≤ g) | none => false)
        && !(match sc.lt with | some l => decide (l ≤ hit.score) | none => false)
        && !(match sc.eq with | some e => decide (hit.score ≠ e) | none => false)), ?_⟩
    simp only [filterHitsByScore, h, if_true]

/-- A cache-miss `search` run, stated against explicit components: parameter
validation passes, the key is absent, the pipeline yields `pre`, the score
filter yields `l`; the call answers with `l` and stores `pre` under the
key. -/
theorem search_miss_components (t : Engine) (q : String) (p1 : Params)
    (pre l : List Hit) (idx : List (Str × List Doc)) (flds : List Field) (sch : Schema)
    (hcheck : ∀ fl, p1.fields = some fl →
      fl.all (fun e => (t.schema.lookup e.1).isSome) = true)
    (hidx : t.index = idx) (hsch : t.schema = sch)
    (hflds : (setParameters t p1).fields = flds)
    (hc : t.cache.lookup (createCacheKey q (some p1)) = none)
    (hpipe : pipeline idx flds sch q p1.whereC = .ok pre)
    (hfil : filterHitsByScore pre p1.score = .ok l) :
    search t q (some p1) =
      .ok ({ count := l.length, hits := l },
        { setParameters t p1 with
          cache := cacheSet t.cache (createCacheKey q (some p1)) pre }) := by
  obtain ⟨hsch', hidx', hcache', hdocs'⟩ := setParameters_proj t p1
  have hok := handleParameters_ok_of_check t p1 hcheck
  have hc' : (setParameters t p1).cache.lookup (createCacheKey q (some p1)) = none := by
    rw [hcache']; exact hc
  simp only [search, hok]
  simp only [hc', Option.some_bind]
  rw [hidx', hsch', hidx, hsch, hflds, hpipe]
  simp [paramsScore, hfil, hcache']

/-- C1 (amended): with the `score` clause part of the cache key, a second
call that differs from the first only in `score` does NOT reuse the cache —
it recomputes.  Because parameter application is idempotent (distinct field
names) and the pipeline reads only index, fields and schema, the
recomputation yields the very same ranked, deduplicated pre-filter hit list
`pre`: both calls answer with a score post-filter of `pre`, each stores
`pre` under its own key, and they differ only in that post-filter. -/
theorem c1_cache_reuse (s : Engine) (q : String) (p p' : Params) (pre : List Hit)
    (hf : p'.fields = p.fields) (hw : p'.whereC = p.whereC)
    (hnd : ∀ fl, p.fields = some fl → (fl.map Prod.fst).Nodup)
    (hcheck : ∀ fl, p.fields = some fl →
      fl.all (fun e => (s.schema.lookup e.1).isSome) = true)
    (hk1 : s.cache.lookup (createCacheKey q (some p)) = none)
    (hk2 : s.cache.lookup (createCacheKey q (some p')) = none)
    (hkne : createCacheKey q (some p') ≠ createCacheKey q (some p))
    (hpipe : pipeline s.index (setParameters s p).fields s.schema q p.whereC = .ok pre)
    (hv1 : validScoreOpt p.score = true) (hv2 : validScoreOpt p'.score = true) :
    ∃ l1 l2 s1 s2,
      search s q (some p) = .ok ({ count := l1.length, hits := l1 }, s1) ∧
      filterHitsByScore pre p.score = .ok l1 ∧
      s1.cache.lookup (createCacheKey q (some p)) = some pre ∧
      search s1 q (some p') = .ok ({ count := l2.length, hits := l2 }, s2) ∧
      filterHitsByScore pre p'.score = .ok l2 ∧
      s2.cache.lookup (createCacheKey q (some p')) = some pre := by
  obtain ⟨hsch, hidx, hcache, hdocs⟩ := setParameters_proj s p
  obtain ⟨l1, hl1⟩ := filterHitsByScore_ok pre p.score hv1
  obtain ⟨l2, hl2⟩ := filterHitsByScore_ok pre p'.score hv2
  have hsearch1 := search_miss_components s q p pre l1 s.index
    (setParameters s p).fields s.schema hcheck rfl rfl rfl hk1 hpipe hl1
  have hsearch2 := search_miss_components
    { setParameters s p with cache := cacheSet s.cache (createCacheKey q (some p)) pre }
    q p' pre l2 s.index (setParameters s p).fields s.schema
    (by
      intro fl hfl
      have h1 := hcheck fl (by rw [← hf]; exact hfl)
      show fl.all (fun e => ((setParameters s p).schema.lookup e.1).isSome) = true
      rw [hsch]; exact h1)
    hidx
    hsch
    (by
      cases hpf : p.fields with
      | none =>
        have hpf' : p'.fields = none := by rw [hf, hpf]
        simp [setParameters, hpf, hpf']
      | some fl =>
        have hpf' : p'.fields = some fl := by rw [hf, hpf]
        simp only [setParameters, hpf, hpf']
        exact foldl_applyFieldEntry_idem fl s.fields (hnd fl hpf))
    (by
      show (cacheSet s.cache (createCacheKey q (some p)) pre).lookup
        (createCacheKey q (some p')) = none
      rw [lookup_cacheSet_ne s.cache (createCacheKey q (some p))
        (createCacheKey q (some p')) pre hkne]
      exact hk2)
    (by rw [hw]; exact hpipe)
    hl2
  exact ⟨l1, l2, _, _, hsearch1, hl1, lookup_cacheSet_self _ _ _, hsearch2, hl2,
    lookup_cacheSet_self _ _ _⟩

set_option maxRecDepth 400000 in
/-- C1 witness: the amended property evaluated on the single-document title
engine, first with `score.gt = 1/2`, then with `score.gt = 1/4`. -/
theorem c1_cache_reuse_witness :
    ∃ l1 l2 s1 s2,
      search titleEngine "great" (some { score := some { gt := some (1/2) } }) =
        .ok ({ count := l1.length, hits := l1 }, s1) ∧
      filterHitsByScore [{ score := 1, document := titleDoc }]
          (Params.score { score := some { gt := some (1/2) } }) = .ok l1 ∧
      s1.cache.lookup (createCacheKey "great"
          (some { score := some { gt := some (1/2) } })) =
        some [{ score := 1, document := titleDoc }] ∧
      search s1 "great" (some { score := some { gt := some (1/4) } }) =
        .ok ({ count := l2.length, hits := l2 }, s2) ∧
      filterHitsByScore [{ score := 1, document := titleDoc }]
          (Params.score { score := some { gt := some (1/4) } }) = .ok l2 ∧
      s2.cache.lookup (createCacheKey "great"
          (some { score := some { gt := some (1/4) } })) =
        some [{ score := 1, document := titleDoc }] :=
  c1_cache_reuse titleEngine "great"
    { score := some { gt := some (1/2) } } { score := some { gt := some (1/4) } }
    [{ score := 1, document := titleDoc }]
    rfl rfl
    (by intro fl h; exact absurd h (by simp))
    (by intro fl h; exact absurd h (by simp))
    (by with_unfolding_all decide)
    (by with_unfolding_all decide)
    (by with_unfolding_all decide)
    (by with_unfolding_all rfl)
    (by with_unfolding_all decide)
    (by with_unfolding_all decide)

end Vultos
